import Mathlib

/-!
Verification of the raytracer's core geometry and rendering pipeline.

Shallow embedding conventions used throughout this file:
* `f64` values are modelled as real numbers (`ℝ`).  Decimal literals such as
  `254.999` denote the exact rational value of the literal.
* Interval endpoints that the source stores as `f64` and that genuinely take
  the values `±INFINITY` (the ray-parameter intervals, e.g. `EMPTY`,
  `UNIVERSE`, and the integrator's `[0.001, +inf)`) are modelled with `EReal`,
  the reals extended with `⊤`/`⊥`.  Geometry (points, directions, box bounds
  built from finite points) stays in `ℝ`.
* Where the source's IEEE-754 arithmetic produces infinities or NaNs whose
  effect on control flow is determinate (the AABB slab test with a zero
  direction component, the sphere quadratic with a zero direction), the
  embedding encodes the resulting branch outcome explicitly; each such place
  carries a comment with the IEEE trace it mirrors.
* Rust `Option` maps to Lean `Option`; a `panic!`/`unreachable!` outcome maps
  to `none` of an `Option`-returning model.
-/

namespace Raytracer

noncomputable section

/-- Axis over 3d space, from `src/utils/math.rs`. -/
inductive Axis where
  | X : Axis
  | Y : Axis
  | Z : Axis
deriving DecidableEq

/-- Vector / point type, from `src/core/point3.rs` (`Point { e: [f64; 3] }`,
with accessors `x()`, `y()`, `z()` modelled as named fields). -/
@[ext] structure Point where
  x : ℝ
  y : ℝ
  z : ℝ

namespace Point

/-- Component-wise addition (`impl Add for Point`). -/
instance : Add Point := ⟨fun a b => ⟨a.x + b.x, a.y + b.y, a.z + b.z⟩⟩

/-- Component-wise subtraction (`impl Sub for Point`). -/
instance : Sub Point := ⟨fun a b => ⟨a.x - b.x, a.y - b.y, a.z - b.z⟩⟩

/-- Negation (`impl Neg for Point`). -/
instance : Neg Point := ⟨fun a => ⟨-a.x, -a.y, -a.z⟩⟩

/-- Scaling by a scalar (`impl Mul<f64> for Point`). -/
instance : HMul Point ℝ Point := ⟨fun a l => ⟨a.x * l, a.y * l, a.z * l⟩⟩

/-- Division by a scalar (`impl Div<f64> for Point`). -/
instance : HDiv Point ℝ Point := ⟨fun a l => ⟨a.x / l, a.y / l, a.z / l⟩⟩

@[simp] theorem add_def (a b : Point) : a + b = ⟨a.x + b.x, a.y + b.y, a.z + b.z⟩ := rfl

@[simp] theorem sub_def (a b : Point) : a - b = ⟨a.x - b.x, a.y - b.y, a.z - b.z⟩ := rfl

@[simp] theorem neg_def (a : Point) : -a = ⟨-a.x, -a.y, -a.z⟩ := rfl

@[simp] theorem smul_def (a : Point) (l : ℝ) : a * l = ⟨a.x * l, a.y * l, a.z * l⟩ := rfl

@[simp] theorem sdiv_def (a : Point) (l : ℝ) : a / l = ⟨a.x / l, a.y / l, a.z / l⟩ := rfl

/-- Squared Euclidean length (`squared_size`). -/
def squaredSize (a : Point) : ℝ := a.x * a.x + a.y * a.y + a.z * a.z

/-- Euclidean length (`size`). -/
noncomputable def size (a : Point) : ℝ := Real.sqrt a.squaredSize

/-- Unit normalization (`unit`); real division, so division by a zero length
follows the Lean convention `x / 0 = 0` (the source would produce IEEE
infinities; no claim below depends on normalizing a zero vector). -/
noncomputable def unit (a : Point) : Point := a / a.size

/-- Dot product (`scalar_prod`).  The source special-cases `self == rhs` to
`squared_size`, which computes the same real value; the embedding uses the
single formula. -/
def dot (a b : Point) : ℝ := a.x * b.x + a.y * b.y + a.z * b.z

/-- Cross product (`cross`). -/
def cross (a b : Point) : Point :=
  ⟨a.y * b.z - a.z * b.y, a.z * b.x - a.x * b.z, a.x * b.y - a.y * b.x⟩

/-- Near-zero test (`near_zero`): all components below `1e-8` in absolute
value. -/
def nearZero (a : Point) : Prop := |a.x| < 1e-8 ∧ |a.y| < 1e-8 ∧ |a.z| < 1e-8

instance (a : Point) : Decidable a.nearZero := by unfold nearZero; infer_instance

/-- Mirror reflection (`reflect`): `v - n * 2 * dot(v, n)`. -/
def reflect (v n : Point) : Point := v - n * (2 : ℝ) * (v.dot n)

end Point

/-- Ray, from `src/core/ray.rs`: origin, direction and time scalar.
`Ray::new` takes `tm : Option<f64>` and stores `tm.unwrap_or_default()`;
callers that pass `None` therefore get time `0`. -/
structure Ray where
  orig : Point
  dir : Point
  tm : ℝ

/-- Point at parameter (`Ray::at`): `orig + dir * t`. -/
def Ray.at (r : Ray) (t : ℝ) : Point := r.orig + r.dir * t

/-- Scalar interval, from `src/utils/interval.rs`.  The structure is generic
in the endpoint type: the source's single `f64` type is instantiated at `ℝ`
for finite box bounds and at `EReal` where the source genuinely stores
`±INFINITY` (ray-parameter intervals, the `EMPTY` box). -/
structure Interval (α : Type) where
  min : α
  max : α

namespace Interval

/-- Interval union (`Interval::enclosing`): `min` of mins, `max` of maxes,
written with the source's conditionals. -/
def enclosing {α : Type} [LinearOrder α] (lhs rhs : Interval α) : Interval α :=
  ⟨if lhs.min ≤ rhs.min then lhs.min else rhs.min,
   if lhs.max ≥ rhs.max then lhs.max else rhs.max⟩

/-- Interval size (`Interval::size`): `max - min`. -/
def size (i : Interval ℝ) : ℝ := i.max - i.min

/-- Strict membership (`Interval::surrounds`): `min < val && max > val`.
Ray-parameter intervals are `EReal`-valued while the tested parameter is a
real number. -/
def surrounds (i : Interval EReal) (val : ℝ) : Prop :=
  i.min < (val : EReal) ∧ i.max > (val : EReal)

instance (i : Interval EReal) (v : ℝ) : Decidable (i.surrounds v) := by
  unfold surrounds; infer_instance

end Interval

/-- Empty ray-parameter interval (`interval::EMPTY = (+inf, -inf)`). -/
def intervalEMPTY : Interval EReal := ⟨⊤, ⊥⟩

/-- Axis-aligned bounding box, from `src/scene/aabb.rs`: one interval per
axis, generic in the endpoint type like `Interval`. -/
structure Aabb (α : Type) where
  x : Interval α
  y : Interval α
  z : Interval α

namespace Aabb

/-- Per-axis interval selection (`Aabb::axis_interval`). -/
def axisInterval {α : Type} (b : Aabb α) (n : Axis) : Interval α :=
  match n with
  | .X => b.x
  | .Y => b.y
  | .Z => b.z

/-- Box union (`Aabb::merge`): per-axis `Interval::enclosing`. -/
def merge {α : Type} [LinearOrder α] (lhs rhs : Aabb α) : Aabb α :=
  ⟨Interval.enclosing lhs.x rhs.x,
   Interval.enclosing lhs.y rhs.y,
   Interval.enclosing lhs.z rhs.z⟩

/-- Box from two corner points (`Aabb::from_points`): per axis, the ordered
pair of the two coordinates. -/
def fromPoints (a b : Point) : Aabb ℝ :=
  ⟨⟨if a.x ≤ b.x then a.x else b.x, if a.x ≤ b.x then b.x else a.x⟩,
   ⟨if a.y ≤ b.y then a.y else b.y, if a.y ≤ b.y then b.y else a.y⟩,
   ⟨if a.z ≤ b.z then a.z else b.z, if a.z ≤ b.z then b.z else a.z⟩⟩

end Aabb

/-- Empty box (`aabb::EMPTY`, via `Default`): every axis is the empty
interval `(+inf, -inf)`. -/
def aabbEMPTY : Aabb EReal := ⟨⟨⊤, ⊥⟩, ⟨⊤, ⊥⟩, ⟨⊤, ⊥⟩⟩

/-- Containment of one interval in another, per the spec's reading of
"contains on every axis": the outer bounds enclose the inner ones. -/
def Interval.containsI {α : Type} [LinearOrder α] (outer inner : Interval α) : Prop :=
  outer.min ≤ inner.min ∧ inner.max ≤ outer.max

/-- Box containment: per-axis interval containment. -/
def Aabb.containsB {α : Type} [LinearOrder α] (outer inner : Aabb α) : Prop :=
  outer.x.containsI inner.x ∧ outer.y.containsI inner.y ∧ outer.z.containsI inner.z


theorem ite_min_comm {α : Type} [LinearOrder α] (x y : α) :
    (if x ≤ y then x else y) = (if y ≤ x then y else x) := by
  rcases le_total x y with h | h
  · rw [if_pos h]
    by_cases h2 : y ≤ x
    · rw [if_pos h2]
      exact le_antisymm h h2
    · rw [if_neg h2]
  · rw [if_pos h]
    by_cases h2 : x ≤ y
    · rw [if_pos h2]
      exact le_antisymm h2 h
    · rw [if_neg h2]

theorem ite_max_comm {α : Type} [LinearOrder α] (x y : α) :
    (if x ≥ y then x else y) = (if y ≥ x then y else x) := by
  by_cases h1 : x ≥ y
  · rw [if_pos h1]
    by_cases h2 : y ≥ x
    · rw [if_pos h2]
      exact le_antisymm h2 h1
    · rw [if_neg h2]
  · rw [if_neg h1]
    rw [if_pos (le_of_not_le h1)]

theorem ite_min_le_left {α : Type} [LinearOrder α] (x y : α) :
    (if x ≤ y then x else y) ≤ x := by
  split_ifs with h
  · exact le_refl x
  · exact le_of_not_le h

theorem ite_min_le_right {α : Type} [LinearOrder α] (x y : α) :
    (if x ≤ y then x else y) ≤ y := by
  split_ifs with h
  · exact h
  · exact le_refl y

theorem left_le_ite_max {α : Type} [LinearOrder α] (x y : α) :
    x ≤ (if x ≥ y then x else y) := by
  split_ifs with h
  · exact le_refl x
  · exact le_of_not_le h

theorem right_le_ite_max {α : Type} [LinearOrder α] (x y : α) :
    y ≤ (if x ≥ y then x else y) := by
  split_ifs with h
  · exact h
  · exact le_refl y

theorem Interval.enclosing_comm {α : Type} [LinearOrder α] (a b : Interval α) :
    Interval.enclosing a b = Interval.enclosing b a := by
  unfold Interval.enclosing
  rw [ite_min_comm, ite_max_comm]

theorem Interval.enclosing_idem {α : Type} [LinearOrder α] (a : Interval α) :
    Interval.enclosing a a = a := by
  unfold Interval.enclosing
  simp

theorem Interval.enclosing_contains_left {α : Type} [LinearOrder α] (a b : Interval α) :
    (Interval.enclosing a b).containsI a :=
  ⟨ite_min_le_left a.min b.min, left_le_ite_max a.max b.max⟩

theorem Interval.enclosing_contains_right {α : Type} [LinearOrder α] (a b : Interval α) :
    (Interval.enclosing a b).containsI b :=
  ⟨ite_min_le_right a.min b.min, right_le_ite_max a.max b.max⟩

theorem Interval.enclosing_empty {α : Type} [LinearOrder α] [OrderTop α] [OrderBot α]
    (b : Interval α) : Interval.enclosing ⟨⊤, ⊥⟩ b = b := by
  unfold Interval.enclosing
  refine congrArg₂ Interval.mk ?_ ?_
  · split_ifs with h
    · exact (top_le_iff.1 h).symm
    · rfl
  · split_ifs with h
    · exact (le_bot_iff.1 h).symm
    · rfl

/-- Color type, from `src/core/rgb.rs` (`ARgb { rgb: [f64; 3] }`; the camera
module consumes it under the name `Rgb`). -/
structure ARgb where
  r : ℝ
  g : ℝ
  b : ℝ

namespace ARgb

/-- Component-wise addition (`impl Add for ARgb`). -/
instance : Add ARgb := ⟨fun a c => ⟨a.r + c.r, a.g + c.g, a.b + c.b⟩⟩

/-- Component-wise (Hadamard) product (`impl Mul<ARgb> for ARgb`). -/
instance : Mul ARgb := ⟨fun a c => ⟨a.r * c.r, a.g * c.g, a.b * c.b⟩⟩

/-- Scaling (`impl Mul<f64> for ARgb`). -/
instance : HMul ARgb ℝ ARgb := ⟨fun a l => ⟨a.r * l, a.g * l, a.b * l⟩⟩

/-- Scalar division (`impl Div<f64> for ARgb`). -/
instance : HDiv ARgb ℝ ARgb := ⟨fun a l => ⟨a.r / l, a.g / l, a.b / l⟩⟩

end ARgb

/-- Two-argument arctangent: `y.atan2(x)` in the source is the principal
angle of the point `(x, y)`, modelled by the complex argument.  (IEEE signed
zeros have no counterpart in `ℝ`; on nonzero inputs the functions agree.) -/
def atan2 (y x : ℝ) : ℝ := Complex.arg ⟨x, y⟩

/-- Sphere UV mapping (`Sphere::uv`, `src/scene/sphere.rs`).  Note the
source's expressions parse, by Rust method-call precedence, as
`theta = -(acos(p.y))` and `phi = -(atan2(p.z, p.x)) + π`; the embedding
keeps that exact parse.  `FRAC_1_PI` is `1/π`. -/
def sphereUV (p : Point) : ℝ × ℝ :=
  (0.5 * (-(atan2 p.z p.x) + Real.pi) * (1 / Real.pi),
   (-(Real.arccos p.y)) * (1 / Real.pi))

/-- Side of the surface the ray hit (`NormalFace`, `src/scene/hittable.rs`):
`Outside` records a hit from outside the surface. -/
inductive NormalFace where
  | Inside : NormalFace
  | Outside : NormalFace
deriving DecidableEq

/-- Face-orientation logic (`HitRec::set_face_normal`): returns the recorded
face flag and the stored normal.  The normal is the outward normal when
`dot(ray.dir, outward) < 0` (hit from outside), otherwise its negation. -/
def setFaceNormal (r : Ray) (outwardNormal : Point) : NormalFace × Point :=
  if r.dir.dot outwardNormal < 0 then (.Outside, outwardNormal)
  else (.Inside, -outwardNormal)

/-- Hit record (`HitRec`): hit point, stored normal, parameter `t`, face
flag and texture coordinate.  The material reference the source stores in
the record is carried alongside as the second component of a pair by the
hit functions below (this avoids a type-level cycle between `HitRec` and
the scatter function type). -/
structure HitRec where
  p : Point
  n : Point
  t : ℝ
  face : NormalFace
  uv : ℝ × ℝ

/-- Material contract (`Arc<dyn Material>`): scattering is dynamic dispatch
in the source, modelled as an arbitrary function from the incoming ray and
hit record to either `none` (absorbed) or an attenuation plus scattered
ray.  Internal RNG draws of a concrete material are part of the function
value; the concrete material embeddings below take their draws as explicit
arguments. -/
def Material : Type := Ray → HitRec → Option (ARgb × Ray)

/-- Sphere center, static or linearly moving (`Center`). -/
inductive Center where
  | Static : Point → Center
  | Moving : Point → Point → Center

/-- Sphere (`src/scene/sphere.rs`): radius, center description, material and
precomputed bounding box. -/
structure Sphere where
  r : ℝ
  center : Center
  mat : Material
  bbox : Aabb ℝ

/-- Radius vector helper (`rvec`). -/
def rvec (r : ℝ) : Point := ⟨r, r, r⟩

/-- Static sphere constructor (`Sphere::new_static`): stores `max(r, 0)` as
the radius but computes the box from the raw `r`. -/
def sphereNewStatic (r : ℝ) (center : Point) (mat : Material) : Sphere :=
  ⟨max r 0, .Static center, mat,
   Aabb.fromPoints (center - rvec r) (center + rvec r)⟩

/-- General sphere constructor (`Sphere::new`): a moving sphere gets the
merge of the two endpoint boxes. -/
def sphereNew (r : ℝ) (center : Point) (movingCenter : Option Point)
    (mat : Material) : Sphere :=
  match movingCenter with
  | some secondCenter =>
      ⟨max r 0, .Moving center secondCenter, mat,
       Aabb.merge (Aabb.fromPoints (center - rvec r) (center + rvec r))
         (Aabb.fromPoints (secondCenter - rvec r) (secondCenter + rvec r))⟩
  | none => sphereNewStatic r center mat

/-- Time-interpolated center (`Sphere::center_at`). -/
def Sphere.centerAt (s : Sphere) (tm : ℝ) : Point :=
  match s.center with
  | .Static p => p
  | .Moving beforeC laterC =>
      ⟨beforeC.x + tm * (laterC.x - beforeC.x),
       beforeC.y + tm * (laterC.y - beforeC.y),
       beforeC.z + tm * (laterC.z - beforeC.z)⟩

/-- Root selection of `Sphere::hit`: the half-b quadratic, rejecting a
negative discriminant, then the smaller root `(h-√d)/a` if it is inside the
interval, else the larger root `(h+√d)/a`, else no hit.  For a zero
direction (`a = 0`, hence `h = 0` and `d = 0`) the source computes
`t = 0/0 = NaN`, every `surrounds` comparison on NaN is false, and no hit
is returned; real division would instead give `t = 0`, so that branch
outcome is encoded explicitly. -/
def sphereHitT (s : Sphere) (ray : Ray) (rt : Interval EReal) : Option ℝ :=
  let curCenter := s.centerAt ray.tm
  let oc := curCenter - ray.orig
  let a := ray.dir.dot ray.dir
  let h := ray.dir.dot oc
  let c := oc.dot oc - s.r * s.r
  let d := h * h - a * c
  if d < 0 then none
  else if a = 0 then none
  else
    let sqrd := Real.sqrt d
    let t1 := (h - sqrd) / a
    if rt.surrounds t1 then some t1
    else
      let t2 := (h + sqrd) / a
      if rt.surrounds t2 then some t2 else none

/-- Hit-record construction of `Sphere::hit` for an accepted parameter `t`:
world point, outward normal `(p - center)/r`, face orientation and UV. -/
def sphereRec (s : Sphere) (ray : Ray) (t : ℝ) : HitRec × Material :=
  let curCenter := s.centerAt ray.tm
  let p := ray.at t
  let outwardNormal := (p - curCenter) / s.r
  let fn := setFaceNormal ray outwardNormal
  (⟨p, fn.2, t, fn.1, sphereUV outwardNormal⟩, s.mat)

/-- Full `Sphere::hit`: root selection followed by record construction. -/
def sphereHit (s : Sphere) (ray : Ray) (rt : Interval EReal) :
    Option (HitRec × Material) :=
  (sphereHitT s ray rt).map (sphereRec s ray)

/-- One-axis slab test (`Aabb::find_ray_hit_boundaries`): tighten a fresh
copy of the incoming parameter interval by the ordered slab crossings and
require it to stay nonempty (strictly).  For a nonzero direction component
the source's `recip`-then-multiply equals real division.  For a zero
component the source computes `adinv = ±∞`, so each product
`(bound - origin) * adinv` is `±∞` — or NaN when that bound equals the
origin — and NaN makes every subsequent comparison false; tracing the
source's comparisons over all sign cases gives exactly the condition
encoded in the `d = 0` branch (the inverted-interval cases with
`max ≤ origin ≤ min` also leave the interval untouched). -/
def slabHit (ax : Interval ℝ) (origin d : ℝ) (rt : Interval EReal) : Prop :=
  if d = 0 then
    (((ax.min < origin ∧ origin < ax.max) ∨ (ax.max ≤ origin ∧ origin ≤ ax.min)) ∧
      rt.min < rt.max)
  else
    let t0 := (ax.min - origin) / d
    let t1 := (ax.max - origin) / d
    let mn := if t0 < t1 then t0 else t1
    let mx := if t0 < t1 then t1 else t0
    max rt.min (mn : EReal) < min rt.max (mx : EReal)

instance (ax : Interval ℝ) (origin d : ℝ) (rt : Interval EReal) :
    Decidable (slabHit ax origin d rt) := by
  unfold slabHit; infer_instance

/-- Box hit test (`Aabb::hit`): all three axis tests, each against the
original incoming interval. -/
def aabbHit (box : Aabb ℝ) (r : Ray) (rt : Interval EReal) : Prop :=
  slabHit box.x r.orig.x r.dir.x rt ∧
  slabHit box.y r.orig.y r.dir.y rt ∧
  slabHit box.z r.orig.z r.dir.z rt

instance (box : Aabb ℝ) (r : Ray) (rt : Interval EReal) :
    Decidable (aabbHit box r rt) := by
  unfold aabbHit; infer_instance

/-- Bounding-box minimum on an axis, the sort key of
`Aabb::compare_over_axis` (ordering by interval minimum on that axis). -/
def axMin (s : Sphere) (ax : Axis) : ℝ := (s.bbox.axisInterval ax).min

/-- Insertion step of the sort used to model `sort_unstable_by` with the
`compare_over_axis` comparator. -/
def insertByAxis (ax : Axis) (a : Sphere) : List Sphere → List Sphere
  | [] => [a]
  | b :: bs => if axMin a ax ≤ axMin b ax then a :: b :: bs else b :: insertByAxis ax a bs

/-- Sorting a slice by bounding-box minimum on an axis.  The source calls
`sort_unstable_by` (an unstable pattern-defeating quicksort) whose only
observable contract is a permutation sorted by the comparator; an insertion
sort models that contract. -/
def sortByAxis (ax : Axis) (l : List Sphere) : List Sphere :=
  l.foldr (insertByAxis ax) []

theorem length_insertByAxis (ax : Axis) (a : Sphere) (l : List Sphere) :
    (insertByAxis ax a l).length = l.length + 1 := by
  induction l with
  | nil => rfl
  | cons b bs ih =>
      unfold insertByAxis
      split
      · rfl
      · simp [ih]

theorem length_sortByAxis (ax : Axis) (l : List Sphere) :
    (sortByAxis ax l).length = l.length := by
  induction l with
  | nil => rfl
  | cons b bs ih =>
      show (insertByAxis ax b (sortByAxis ax bs)).length = bs.length + 1
      rw [length_insertByAxis, ih]

theorem mem_insertByAxis (ax : Axis) (a x : Sphere) (l : List Sphere) :
    x ∈ insertByAxis ax a l ↔ x = a ∨ x ∈ l := by
  induction l with
  | nil => simp [insertByAxis]
  | cons b bs ih =>
      unfold insertByAxis
      split
      · simp
      · simp only [List.mem_cons, ih]
        tauto

theorem mem_sortByAxis (ax : Axis) (x : Sphere) (l : List Sphere) :
    x ∈ sortByAxis ax l ↔ x ∈ l := by
  induction l with
  | nil => simp [sortByAxis]
  | cons b bs ih =>
      show x ∈ insertByAxis ax b (sortByAxis ax bs) ↔ _
      rw [mem_insertByAxis]
      simp only [List.mem_cons, ih]

/-- Modelled from the spec: `Aabb::longest_axis` is called by `Bvh::new` but
its definition is not among the provided sources.  Spec 4.2: "longestAxis():
axis with largest span, used as BVH split heuristic."  Tie-breaking is not
specified; this model prefers X, then Y.  (No theorem below depends on which
axis is chosen.) -/
def Aabb.longestAxis (b : Aabb ℝ) : Axis :=
  if b.y.size ≤ b.x.size ∧ b.z.size ≤ b.x.size then .X
  else if b.z.size ≤ b.y.size then .Y
  else .Z

/-- Union box of a span of objects (`Bvh::new` step 1).  The source folds
`Aabb::merge` starting from `aabb::EMPTY = (+inf, -inf)`; merging `EMPTY`
with a finite box returns that box unchanged (the `f64` comparisons against
the infinities select the finite bounds), so on the nonempty spans the
recursion works with this equals folding from the first object's box.  The
`[]` value is irrelevant: `Bvh::new` declares the empty span unreachable. -/
def boxSum : List Sphere → Aabb ℝ
  | [] => ⟨⟨0, 0⟩, ⟨0, 0⟩, ⟨0, 0⟩⟩
  | s :: rest => rest.foldl (fun acc s2 => Aabb.merge acc s2.bbox) s.bbox

/-- BVH tree (`Bvh { left, right, bbox }`): children are either spheres or
nested BVH nodes (`Arc<dyn Hittable>`), so the tree alternates freely. -/
inductive BTree where
  | leaf : Sphere → BTree
  | node : BTree → BTree → Aabb ℝ → BTree

/-- BVH construction (`Bvh::new`).  The zero-object case is
`unreachable!()` (a panic), modelled as `none`.  One object: both children
point at it.  Two objects: ordered by `compare_over_axis` on the chosen
axis (`Less | Equal` keeps the given order).  More: sort by the axis
minimum, split at the midpoint, recurse. -/
def bvhNew : List Sphere → Option BTree
  | [] => none
  | [a] => some (.node (.leaf a) (.leaf a) (boxSum [a]))
  | [a, b] =>
      let box := boxSum [a, b]
      let axis := box.longestAxis
      if axMin a axis ≤ axMin b axis then some (.node (.leaf a) (.leaf b) box)
      else some (.node (.leaf b) (.leaf a) box)
  | a :: b :: c :: rest =>
      let l := a :: b :: c :: rest
      let box := boxSum l
      let sorted := sortByAxis box.longestAxis l
      let mid := l.length / 2
      match bvhNew (sorted.take mid), bvhNew (sorted.drop mid) with
      | some leftT, some rightT => some (.node leftT rightT box)
      | _, _ => none
termination_by l => l.length
decreasing_by
  · simp_wf
    simp only [List.length_take, length_sortByAxis, List.length_cons]
    omega
  · simp_wf
    simp only [List.length_drop, length_sortByAxis, List.length_cons]
    omega

/-- Rust `Option::or`: keep the first result if present, else the second. -/
def orO {α : Type} : Option α → Option α → Option α
  | some a, _ => some a
  | none, b => b

/-- BVH hit query (`impl Hittable for Bvh`): reject if the node box misses;
query the left child on the full interval; if it hit at `t`, query the
right child on `[min, t]`; return the right result if present, else the
left one (`hit_right.or(hit_left)`). -/
def bvhHit : BTree → Ray → Interval EReal → Option (HitRec × Material)
  | .leaf s, ray, rt => sphereHit s ray rt
  | .node leftT rightT box, ray, rt =>
      if aabbHit box ray rt then
        let hitLeft := bvhHit leftT ray rt
        let hitRight :=
          match hitLeft with
          | some leftHr => bvhHit rightT ray ⟨rt.min, (leftHr.1.t : EReal)⟩
          | none => bvhHit rightT ray rt
        orO hitRight hitLeft
      else none

/-- Parameter of a BVH hit result: the `Some`/`None` outcome together with
the hit parameter `t`, the data claim C1 compares. -/
def bvhHitT (tr : BTree) (ray : Ray) (rt : Interval EReal) : Option ℝ :=
  (bvhHit tr ray rt).map (fun pr => pr.1.t)

/-- Minimum of two optional parameters, preferring any present value. -/
def minOpt : Option ℝ → Option ℝ → Option ℝ
  | none, o => o
  | some a, none => some a
  | some a, some b => some (min a b)

/-- Modelled from the spec (reference side of the refinement claim C1):
"brute-force linear scan over all primitives that keeps the hit with the
smallest parameter t inside the interval". -/
def bruteForceT (l : List Sphere) (ray : Ray) (rt : Interval EReal) : Option ℝ :=
  l.foldr (fun s acc => minOpt (sphereHitT s ray rt) acc) none

/-- Leaves of a BVH tree, in order (the degenerate one-object node lists
its sphere twice, matching the self-pair in `Bvh::new`). -/
def leavesT : BTree → List Sphere
  | .leaf s => [s]
  | .node leftT rightT _ => leavesT leftT ++ leavesT rightT

/-- Coordinate of a point on an axis. -/
def Point.comp (p : Point) : Axis → ℝ
  | .X => p.x
  | .Y => p.y
  | .Z => p.z

/-- The stored bounding box of a sphere is the one its constructors
compute from its stored radius and center(s); every sphere the source
builds satisfies this. -/
def Sphere.boxOK (s : Sphere) : Prop :=
  match s.center with
  | .Static c => s.bbox = Aabb.fromPoints (c - rvec s.r) (c + rvec s.r)
  | .Moving c1 c2 =>
      s.bbox = Aabb.merge (Aabb.fromPoints (c1 - rvec s.r) (c1 + rvec s.r))
        (Aabb.fromPoints (c2 - rvec s.r) (c2 + rvec s.r))

/-- Box stored at the root of a subtree (a leaf's is its sphere's box). -/
def treeBox : BTree → Aabb ℝ
  | .leaf s => s.bbox
  | .node _ _ box => box

/-- Structural invariant of built BVH trees: every node's box contains the
boxes of both children. -/
inductive WFT : BTree → Prop where
  | leaf (s : Sphere) : WFT (.leaf s)
  | node (lt rt : BTree) (box : Aabb ℝ) :
      WFT lt → WFT rt → box.containsB (treeBox lt) → box.containsB (treeBox rt) →
      WFT (.node lt rt box)

/-- Schlick reflectance approximation (`reflectance`, `src/scene/material.rs`). -/
def schlickReflectance (cos refractionIndex : ℝ) : ℝ :=
  let r0 := (1 - refractionIndex) / (1 + refractionIndex)
  let r0sq := r0 * r0
  r0sq + (1 - r0sq) * (1 - cos) ^ (5 : ℕ)

/-- Snell refraction (`refract`): perpendicular/parallel decomposition, the
square-root argument guarded by `abs`. -/
def refract (uv n : Point) (etaiOverEtat : ℝ) : Point :=
  let cosTheta := min ((-uv).dot n) 1
  let rOutPerpendicular := (uv + n * cosTheta) * etaiOverEtat
  let rOutParallel := n * (-Real.sqrt |1 - rOutPerpendicular.dot rOutPerpendicular|)
  rOutPerpendicular + rOutParallel

/-- Lambertian scatter (`impl Material for Lambertian`).  The uniform draw
of `between.sample` and the random unit vector are explicit arguments.
With probability gate `draw < reflectance`: scatter along `normal + random
unit vector` (substituting the normal itself when near zero), carry the
incoming ray's time, attenuate by `texture.color(u, v, p) / reflectance`;
otherwise absorbed. -/
def lambertianScatter (texture : ℝ → ℝ → Point → ARgb) (reflectance : ℝ)
    (draw : ℝ) (rndUnit : Point) (rIn : Ray) (hr : HitRec) : Option (ARgb × Ray) :=
  if draw < reflectance then
    let scatterDir0 := hr.n + rndUnit
    let scatterDir := if scatterDir0.nearZero then hr.n else scatterDir0
    some (texture hr.uv.1 hr.uv.2 hr.p / reflectance, ⟨hr.p, scatterDir, rIn.tm⟩)
  else none

/-- Metal scatter (`impl Material for Metal`): reflect about the stored
normal, optionally fuzz by `unit + rndUnit * fuzz`; the result counts as
scattered only when fuzz is absent or the perturbed direction leaves the
surface (`dot > 0`). -/
def metalScatter (albedo : ARgb) (fuzz : Option ℝ) (rndUnit : Point)
    (rIn : Ray) (hr : HitRec) : Option (ARgb × Ray) :=
  let reflected0 := rIn.dir.reflect hr.n
  let reflected :=
    match fuzz with
    | some f => reflected0.unit + rndUnit * f
    | none => reflected0
  let scattered : Ray := ⟨hr.p, reflected, rIn.tm⟩
  if fuzz = none ∨ 0 < scattered.dir.dot hr.n then some (albedo, scattered) else none

/-- Relative refraction index selection of `Dielectric::scatter`: the
stored index when the hit record's face is `Inside`, its reciprocal when
`Outside`. -/
def dielectricRefIdx (face : NormalFace) (refractionIndex : ℝ) : ℝ :=
  match face with
  | .Inside => refractionIndex
  | .Outside => 1 / refractionIndex

/-- Dielectric scatter (`impl Material for Dielectric`): always scatters
with white attenuation; reflect on total internal reflection or when the
Schlick reflectance exceeds the uniform draw, otherwise refract. -/
def dielectricScatter (refractionIndex : ℝ) (draw : ℝ) (rIn : Ray)
    (hr : HitRec) : Option (ARgb × Ray) :=
  let ri := dielectricRefIdx hr.face refractionIndex
  let unitDir := rIn.dir.unit
  let cosTheta := min ((-unitDir).dot hr.n) 1
  let sinTheta := Real.sqrt (1 - cosTheta * cosTheta)
  let direction :=
    if ri * sinTheta > 1 ∨ schlickReflectance cosTheta ri > draw then
      Point.reflect unitDir hr.n
    else refract unitDir hr.n ri
  some (⟨1, 1, 1⟩, ⟨hr.p, direction, rIn.tm⟩)

/-- Scene (`src/scene/hittable.rs`): owned object list and optional BVH.
The `sum_aabb` field is omitted: the source only ever writes it. -/
structure Scene where
  objects : List Sphere
  bvh : Option BTree

/-- Scene::add: push the object (the BVH is untouched). -/
def sceneAdd (s : Scene) (o : Sphere) : Scene := ⟨s.objects ++ [o], s.bvh⟩

/-- Scene::build_bvh: construct the BVH only when none exists yet. -/
def sceneBuildBvh (s : Scene) : Scene :=
  if s.bvh.isSome then s else ⟨s.objects, bvhNew s.objects⟩

/-- Scene::hit: delegate to the BVH.  The source `expect`s the BVH to
exist (panics otherwise); the panic is modelled as `none`. -/
def sceneHit (s : Scene) (ray : Ray) (rt : Interval EReal) :
    Option (HitRec × Material) :=
  match s.bvh with
  | some tr => bvhHit tr ray rt
  | none => none

/-- Scene mutations relevant to claim C10. -/
inductive SceneOp where
  | addOp : Sphere → SceneOp
  | buildOp : SceneOp

/-- Apply one scene operation. -/
def applyOp (s : Scene) : SceneOp → Scene
  | .addOp o => sceneAdd s o
  | .buildOp => sceneBuildBvh s

/-- Apply a sequence of scene operations, left to right. -/
def applyOps (s : Scene) (ops : List SceneOp) : Scene := ops.foldl applyOp s

/-- Camera (`src/camera/camera.rs`).  The interior RNG state of the
anti-aliaser, defocuser and shatter samplers is omitted: random draws enter
the embedded functions as explicit arguments where a claim needs them. -/
structure Camera where
  lookfrom : Point
  pxDu : Point
  pxDv : Point
  imgWidth : ℕ
  imgHeight : ℕ
  vpUpperLeft : Point
  px00Loc : Point
  aaSamples : Option ℕ
  defocusAngle : ℝ
  maxBounceDepth : ℕ
  defocusDiskU : Point
  defocusDiskV : Point

/-- Camera construction (`Camera::build`), with the source's defaults for
omitted parameters.  `f64_to_u32` truncates the (guarded nonnegative)
height toward zero, i.e. takes the floor; the `expect` on it and the
infallible `Uniform::new(-0.5, 0.5)` cannot fail on this path. -/
def cameraBuild (lookfromO lookatO vupO : Option Point) (imgWidth : ℕ)
    (aspect : ℝ) (aaSamplesPerPx : Option ℕ)
    (vfovO focusDistO defocusAngleO : Option ℝ)
    (maxBounceDepthO : Option ℕ) : Camera :=
  let lookfrom := lookfromO.getD ⟨0, 0, 0⟩
  let lookat := lookatO.getD ⟨0, 0, -1⟩
  let vup := vupO.getD ⟨0, 1, 0⟩
  let vfov := vfovO.getD (Real.pi / 2)
  let focusDist := focusDistO.getD 1
  let defocusAngle := defocusAngleO.getD 0
  let aaSamples : Option ℕ :=
    if aaSamplesPerPx = some 0 then none else some (aaSamplesPerPx.getD 100)
  let maxBounceDepth := maxBounceDepthO.getD 10
  let imgHeight : ℕ :=
    if (imgWidth : ℝ) / aspect < 1 then 1 else ⌊(imgWidth : ℝ) / aspect⌋₊
  let h := Real.tan (vfov / 2)
  let vpHeight := 2 * h * focusDist
  let vpWidth := vpHeight * ((imgWidth : ℝ) / (imgHeight : ℝ))
  let w := (lookfrom - lookat).unit
  let u := vup.cross w
  let v := w.cross u
  let vpV := (-v) * vpHeight
  let vpU := u * vpWidth
  let pxDu := vpU / (imgWidth : ℝ)
  let pxDv := vpV / (imgHeight : ℝ)
  let vpUpperLeft := lookfrom - (w * focusDist) - (vpU + vpV) * (0.5 : ℝ)
  let px00Loc := vpUpperLeft + (pxDv + pxDu) * (0.5 : ℝ)
  let defocusRadius := focusDist * Real.tan (defocusAngle / 2)
  ⟨lookfrom, pxDu, pxDv, imgWidth, imgHeight, vpUpperLeft, px00Loc, aaSamples,
   defocusAngle, maxBounceDepth, u * defocusRadius, v * defocusRadius⟩

/-- No-antialiasing branch of the per-pixel loop in `Camera::render`: one
ray from the camera position toward
`vp_upper_left + px_du * wn + px_dv * hn` (the variable the source names
`px_center`), built with time `None`, stored as `0`. -/
def noAaRay (c : Camera) (wn hn : ℕ) : Ray :=
  let pxCenter := c.vpUpperLeft + (c.pxDu * (wn : ℝ)) + (c.pxDv * (hn : ℝ))
  ⟨c.lookfrom, pxCenter - c.lookfrom, 0⟩

/-- Modelled from the claim (C5 reference side): the direction of a ray
through the center of pixel `(i, j)`, namely
`px00_loc + px_du * i + px_dv * j` minus the camera position. -/
def claimPixelCenterDir (c : Camera) (wn hn : ℕ) : Point :=
  (c.px00Loc + (c.pxDu * (wn : ℝ)) + (c.pxDv * (hn : ℝ))) - c.lookfrom

/-- Background gradient of the integrator (`color`, miss branch):
`lerp(white, skyBlue, 0.5 * (unit(direction).y + 1))`. -/
def background (ray : Ray) : ARgb :=
  let unitDir := ray.dir.unit
  let a := 0.5 * (unitDir.y + 1)
  (⟨1, 1, 1⟩ : ARgb) * (1 - a) + (⟨0.5, 0.7, 1⟩ : ARgb) * a

/-- Recursive color integrator (`color`, `src/camera/camera.rs`): depth 0
returns black; otherwise query the scene on `[0.001, +inf)`; on a hit
dispatch the material's scatter and recurse attenuating component-wise; a
scatter refusal returns black; a miss returns the background gradient. -/
def colorFn (scene : Scene) : ℕ → Ray → ARgb
  | 0, _ => ⟨0, 0, 0⟩
  | depth + 1, ray =>
      match sceneHit scene ray ⟨((0.001 : ℝ) : EReal), ⊤⟩ with
      | some (rec, mat) =>
          match mat ray rec with
          | some (attenuation, scattered) => attenuation * colorFn scene depth scattered
          | none => ⟨0, 0, 0⟩
      | none => background ray

/-- Gamma-2 transform (`linear_to_gamma`): square root of positive values,
zero otherwise. -/
def linearToGamma (linear : ℝ) : ℝ := if linear > 0 then Real.sqrt linear else 0

/-- Rust `f64::round`: round half away from zero. -/
def rustRound (x : ℝ) : ℤ := if 0 ≤ x then ⌊x + 1 / 2⌋ else -⌊-x + 1 / 2⌋

/-- Clamp-then-round conversion (`safe_f64_to_u8_clamp`): clamp into
`[0, 255]` and round.  The NaN guard (`None` branch) has no counterpart in
the real model; the `Display` impl would panic on it. -/
def safeF64ToU8Clamp (value : ℝ) : ℤ := rustRound (min 255 (max 0 value))

/-- One serialized channel of `impl Display for ARgb`: gamma transform,
scale by `254.999`, clamp, round. -/
def displayChannel (x : ℝ) : ℤ := safeF64ToU8Clamp (linearToGamma x * 254.999)

/-- Serialized pixel triple of `impl Display for ARgb`. -/
def argbDisplayTriple (c : ARgb) : ℤ × ℤ × ℤ :=
  (displayChannel c.r, displayChannel c.g, displayChannel c.b)

/-- Modelled from the claim (C4 reference side): the integer
`round(clamp(g * 255.999, 0, 255))` with `g` the gamma transform. -/
def claimChannel (x : ℝ) : ℤ := rustRound (min 255 (max 0 (linearToGamma x * 255.999)))

/-- Modelled from the claim (C6 reference side): the standard spherical
mapping `u = (atan2(-z, x) + π) / (2π)`, `v = arccos(-y) / π`. -/
def claimUV (p : Point) : ℝ × ℝ :=
  ((atan2 (-p.z) p.x + Real.pi) / (2 * Real.pi), Real.arccos (-p.y) / Real.pi)

/-- Modelled from the claim (C7 reference side): `1/η` exactly when the
face flag marks the ray as exiting (`Inside`), `η` when entering
(`Outside`). -/
def claimRefIdx (face : NormalFace) (refractionIndex : ℝ) : ℝ :=
  match face with
  | .Inside => 1 / refractionIndex
  | .Outside => refractionIndex

/-- Quadratic coefficient `a` of `Sphere::hit` (`dot(D, D)`). -/
def sphQuadA (ray : Ray) : ℝ := ray.dir.dot ray.dir

/-- The `oc` vector of `Sphere::hit` (`C - Q`, interpolated center minus
ray origin). -/
def sphOc (s : Sphere) (ray : Ray) : Point := s.centerAt ray.tm - ray.orig

/-- Half-b coefficient `h` of `Sphere::hit` (`dot(D, C - Q)`). -/
def sphQuadH (s : Sphere) (ray : Ray) : ℝ := ray.dir.dot (sphOc s ray)

/-- Constant coefficient `c` of `Sphere::hit` (`dot(oc, oc) - r*r`). -/
def sphQuadC (s : Sphere) (ray : Ray) : ℝ :=
  (sphOc s ray).dot (sphOc s ray) - s.r * s.r

/-- Half-b discriminant `d = h*h - a*c` of `Sphere::hit`. -/
def sphDisc (s : Sphere) (ray : Ray) : ℝ :=
  sphQuadH s ray * sphQuadH s ray - sphQuadA ray * sphQuadC s ray

/-- The root-selection function restated through the named coefficient
definitions (used by the claim statements below). -/
theorem sphereHitT_def (s : Sphere) (ray : Ray) (rt : Interval EReal) :
    sphereHitT s ray rt =
      (if sphDisc s ray < 0 then none
       else if sphQuadA ray = 0 then none
       else if rt.surrounds ((sphQuadH s ray - Real.sqrt (sphDisc s ray)) / sphQuadA ray) then
         some ((sphQuadH s ray - Real.sqrt (sphDisc s ray)) / sphQuadA ray)
       else if rt.surrounds ((sphQuadH s ray + Real.sqrt (sphDisc s ray)) / sphQuadA ray) then
         some ((sphQuadH s ray + Real.sqrt (sphDisc s ray)) / sphQuadA ray)
       else none) := rfl

/-- C9: on NaN-free boxes (modelled as `EReal`-bounded boxes: reals plus
`±∞`, no NaN), `Aabb::merge` is commutative and idempotent, the merged box
contains both inputs on every axis, and the `EMPTY` box (`(+inf, -inf)` on
each axis) is absorbed: `merge(EMPTY, b) = b`. -/
theorem aabb_merge_properties (a b : Aabb EReal) :
    Aabb.merge a b = Aabb.merge b a ∧
    Aabb.merge a a = a ∧
    (Aabb.merge a b).containsB a ∧ (Aabb.merge a b).containsB b ∧
    Aabb.merge aabbEMPTY b = b := by
  refine ⟨?_, ?_, ?_, ?_, ?_⟩
  · unfold Aabb.merge
    rw [Interval.enclosing_comm a.x b.x, Interval.enclosing_comm a.y b.y,
      Interval.enclosing_comm a.z b.z]
  · unfold Aabb.merge
    rw [Interval.enclosing_idem, Interval.enclosing_idem, Interval.enclosing_idem]
  · exact ⟨Interval.enclosing_contains_left _ _, Interval.enclosing_contains_left _ _,
      Interval.enclosing_contains_left _ _⟩
  · exact ⟨Interval.enclosing_contains_right _ _, Interval.enclosing_contains_right _ _,
      Interval.enclosing_contains_right _ _⟩
  · unfold Aabb.merge aabbEMPTY
    rw [show (⟨⟨⊤, ⊥⟩, ⟨⊤, ⊥⟩, ⟨⊤, ⊥⟩⟩ : Aabb EReal).x = ⟨⊤, ⊥⟩ from rfl,
      show (⟨⟨⊤, ⊥⟩, ⟨⊤, ⊥⟩, ⟨⊤, ⊥⟩⟩ : Aabb EReal).y = ⟨⊤, ⊥⟩ from rfl,
      show (⟨⟨⊤, ⊥⟩, ⟨⊤, ⊥⟩, ⟨⊤, ⊥⟩⟩ : Aabb EReal).z = ⟨⊤, ⊥⟩ from rfl,
      Interval.enclosing_empty, Interval.enclosing_empty, Interval.enclosing_empty]


/-- C7 (counterexample): with refraction index 2 and a hit record whose
face flag is `Outside` (the flag `set_face_normal` records for a ray
hitting the surface from outside, i.e. an entering ray), `Dielectric`
uses `1/2`, while the claim prescribes the stored index `2` for an
entering ray. -/
theorem dielectric_refidx_counterexample :
    dielectricRefIdx .Outside 2 = 1 / 2 ∧ claimRefIdx .Outside 2 = 2 ∧
    (1 / 2 : ℝ) ≠ 2 := by
  refine ⟨rfl, rfl, by norm_num⟩

/-- C7 (amended): `Dielectric::scatter` uses the reciprocal index `1/η`
exactly when the face flag recorded by `set_face_normal` is `Outside`
(the ray hit the surface from outside, `dot(dir, outward) < 0`, i.e. it is
entering), and the stored index `η` when the flag is `Inside` (the ray is
exiting). -/
theorem dielectric_refidx_by_face (r : Ray) (outwardNormal : Point)
    (refractionIndex : ℝ) :
    ((setFaceNormal r outwardNormal).1 = NormalFace.Outside →
      r.dir.dot outwardNormal < 0 ∧
      dielectricRefIdx (setFaceNormal r outwardNormal).1 refractionIndex =
        1 / refractionIndex) ∧
    ((setFaceNormal r outwardNormal).1 = NormalFace.Inside →
      0 ≤ r.dir.dot outwardNormal ∧
      dielectricRefIdx (setFaceNormal r outwardNormal).1 refractionIndex =
        refractionIndex) := by
  unfold setFaceNormal
  by_cases h : r.dir.dot outwardNormal < 0
  · rw [if_pos h]
    exact ⟨fun _ => ⟨h, rfl⟩, fun hc => absurd hc (by simp)⟩
  · rw [if_neg h]
    exact ⟨fun hc => absurd hc (by simp), fun _ => ⟨le_of_not_lt h, rfl⟩⟩

/-- Witness for C7's amended theorem at a concrete entering ray. -/
theorem dielectric_refidx_by_face_witness :
    (setFaceNormal ⟨⟨0, 0, 0⟩, ⟨0, 0, -1⟩, 0⟩ ⟨0, 0, 1⟩).1 = NormalFace.Outside ∧
    ((⟨⟨0, 0, 0⟩, ⟨0, 0, -1⟩, 0⟩ : Ray).dir.dot ⟨0, 0, 1⟩ < 0 ∧
      dielectricRefIdx (setFaceNormal ⟨⟨0, 0, 0⟩, ⟨0, 0, -1⟩, 0⟩ ⟨0, 0, 1⟩).1 2 =
        1 / 2) := by
  have hface : (setFaceNormal ⟨⟨0, 0, 0⟩, ⟨0, 0, -1⟩, 0⟩ ⟨0, 0, 1⟩).1 =
      NormalFace.Outside := by
    unfold setFaceNormal
    norm_num [Point.dot]
  exact ⟨hface, (dielectric_refidx_by_face ⟨⟨0, 0, 0⟩, ⟨0, 0, -1⟩, 0⟩ ⟨0, 0, 1⟩ 2).1 hface⟩

/-- C6: at the unit-sphere point `(0, 0, 1)` the source's UV mapping
returns `v = -1/2` (the Rust expression `-p.y().acos()` parses as
`-(acos(y))`, not `acos(-y)`), while the claim's standard mapping gives
`v = 1/2`; in particular the returned `v` is negative, outside `[0, 1]`. -/
theorem sphere_uv_counterexample :
    sphereUV ⟨0, 0, 1⟩ = (1 / 4, -(1 / 2)) ∧
    claimUV ⟨0, 0, 1⟩ = (1 / 4, 1 / 2) ∧
    (sphereUV ⟨0, 0, 1⟩).2 < 0 := by
  have harg1 : atan2 1 0 = Real.pi / 2 := by
    unfold atan2
    rw [show (⟨0, 1⟩ : ℂ) = Complex.I from rfl]
    exact Complex.arg_I
  have harg2 : atan2 (-1) 0 = -(Real.pi / 2) := by
    unfold atan2
    rw [show (⟨0, -1⟩ : ℂ) = -Complex.I by apply Complex.ext <;> simp]
    exact Complex.arg_neg_I
  have hpi := Real.pi_ne_zero
  refine ⟨?_, ?_, ?_⟩
  · unfold sphereUV
    rw [show (⟨0, 0, 1⟩ : Point).z = 1 from rfl, show (⟨0, 0, 1⟩ : Point).x = 0 from rfl,
      show (⟨0, 0, 1⟩ : Point).y = 0 from rfl, harg1, Real.arccos_zero]
    refine Prod.ext ?_ ?_ <;> field_simp <;> ring
  · unfold claimUV
    rw [show (⟨0, 0, 1⟩ : Point).z = 1 from rfl, show (⟨0, 0, 1⟩ : Point).x = 0 from rfl,
      show (⟨0, 0, 1⟩ : Point).y = 0 from rfl, show (-0 : ℝ) = 0 by norm_num,
      harg2, Real.arccos_zero]
    refine Prod.ext ?_ ?_ <;> field_simp <;> ring
  · unfold sphereUV
    rw [show (⟨0, 0, 1⟩ : Point).y = 0 from rfl, Real.arccos_zero]
    have : 0 < Real.pi := Real.pi_pos
    rw [show -(Real.pi / 2) * (1 / Real.pi) = -(1 / 2) by field_simp; ring]
    norm_num

/-- C4 (counterexample): for the accumulated channel value `1/4`, the
gamma value is `1/2`; the source writes `round(clamp(0.5 * 254.999)) = 127`
while the claim's `round(clamp(0.5 * 255.999))` is `128`. -/
theorem display_scale_counterexample :
    displayChannel (1 / 4) = 127 ∧ claimChannel (1 / 4) = 128 := by
  have hg : linearToGamma (1 / 4) = 1 / 2 := by
    unfold linearToGamma
    rw [if_pos (by norm_num), show (1 / 4 : ℝ) = (1 / 2) ^ 2 by norm_num,
      Real.sqrt_sq (by norm_num)]
  unfold displayChannel claimChannel safeF64ToU8Clamp rustRound
  rw [hg]
  have h1 : max (0 : ℝ) (1 / 2 * 254.999) = 1 / 2 * 254.999 := max_eq_right (by norm_num)
  have h2 : min (255 : ℝ) (1 / 2 * 254.999) = 1 / 2 * 254.999 := min_eq_right (by norm_num)
  have h3 : max (0 : ℝ) (1 / 2 * 255.999) = 1 / 2 * 255.999 := max_eq_right (by norm_num)
  have h4 : min (255 : ℝ) (1 / 2 * 255.999) = 1 / 2 * 255.999 := min_eq_right (by norm_num)
  rw [h1, h2, h3, h4, if_pos (by norm_num : (0:ℝ) ≤ 1 / 2 * 254.999),
    if_pos (by norm_num : (0:ℝ) ≤ 1 / 2 * 255.999)]
  constructor
  · rw [Int.floor_eq_iff]
    norm_num
  · rw [Int.floor_eq_iff]
    norm_num

/-- C4 (amended): each serialized channel is
`round(clamp(g * 254.999, 0, 255))` where `g = sqrt(c)` for positive `c`
and `0` otherwise (the source's scale factor is `254.999`, not the claimed
`255.999`), and every written channel integer lies in `[0, 255]`. -/
theorem argb_display_spec (c : ARgb) :
    argbDisplayTriple c =
      (rustRound (min 255 (max 0 ((if 0 < c.r then Real.sqrt c.r else 0) * 254.999))),
       rustRound (min 255 (max 0 ((if 0 < c.g then Real.sqrt c.g else 0) * 254.999))),
       rustRound (min 255 (max 0 ((if 0 < c.b then Real.sqrt c.b else 0) * 254.999)))) ∧
    (∀ x : ℝ, 0 ≤ displayChannel x ∧ displayChannel x ≤ 255) := by
  constructor
  · rfl
  · intro x
    unfold displayChannel safeF64ToU8Clamp rustRound
    set y := min (255 : ℝ) (max 0 (linearToGamma x * 254.999)) with hy
    have hy0 : 0 ≤ y := le_min (by norm_num) (le_max_left _ _)
    have hy255 : y ≤ 255 := min_le_left _ _
    rw [if_pos hy0]
    constructor
    · exact Int.le_floor.2 (by push_cast; linarith)
    · have : ⌊y + 1 / 2⌋ < 256 := Int.floor_lt.2 (by push_cast; linarith)
      omega

/-- C8: for each material variant, whenever `scatter` produces a scattered
ray, that ray's time equals the incoming ray's time. -/
theorem scatter_preserves_time (texture : ℝ → ℝ → Point → ARgb)
    (reflectance draw refractionIndex draw2 : ℝ) (rndUnit rndUnit2 : Point)
    (albedo : ARgb) (fuzz : Option ℝ) (rIn : Ray) (hr : HitRec) :
    (∀ pr, lambertianScatter texture reflectance draw rndUnit rIn hr = some pr →
      pr.2.tm = rIn.tm) ∧
    (∀ pr, metalScatter albedo fuzz rndUnit2 rIn hr = some pr → pr.2.tm = rIn.tm) ∧
    (∀ pr, dielectricScatter refractionIndex draw2 rIn hr = some pr →
      pr.2.tm = rIn.tm) := by
  refine ⟨?_, ?_, ?_⟩ <;> intro pr h
  · unfold lambertianScatter at h
    split at h
    · rw [Option.some_inj] at h
      rw [← h]
    · exact absurd h (by simp)
  · simp only [metalScatter] at h
    split at h
    · rw [Option.some_inj] at h
      rw [← h]
    · exact absurd h (by simp)
  · unfold dielectricScatter at h
    rw [Option.some_inj] at h
    rw [← h]

/-- Witness for C8 at concrete scatter calls (incoming time `7`). -/
theorem scatter_preserves_time_witness :
    (lambertianScatter (fun _ _ _ => ⟨1, 1, 1⟩) 1 0 ⟨0, 0, 1⟩
        ⟨⟨0, 0, 0⟩, ⟨0, 0, -1⟩, 7⟩ ⟨⟨0, 0, 0⟩, ⟨0, 0, 1⟩, 1, .Outside, (0, 0)⟩).map
        (fun pr => pr.2.tm) = some 7 ∧
    (metalScatter ⟨1, 1, 1⟩ none ⟨0, 0, 1⟩ ⟨⟨0, 0, 0⟩, ⟨0, 0, -1⟩, 7⟩
        ⟨⟨0, 0, 0⟩, ⟨0, 0, 1⟩, 1, .Outside, (0, 0)⟩).map
        (fun pr => pr.2.tm) = some 7 ∧
    (dielectricScatter 2 1 ⟨⟨0, 0, 0⟩, ⟨0, 0, -1⟩, 7⟩
        ⟨⟨0, 0, 0⟩, ⟨0, 0, 1⟩, 1, .Outside, (0, 0)⟩).map
        (fun pr => pr.2.tm) = some 7 := by
  have hthm := scatter_preserves_time (fun _ _ _ => ⟨1, 1, 1⟩) 1 0 2 1
    ⟨0, 0, 1⟩ ⟨0, 0, 1⟩ ⟨1, 1, 1⟩ none ⟨⟨0, 0, 0⟩, ⟨0, 0, -1⟩, 7⟩
    ⟨⟨0, 0, 0⟩, ⟨0, 0, 1⟩, 1, .Outside, (0, 0)⟩
  refine ⟨?_, ?_, ?_⟩
  · rcases heq : lambertianScatter (fun _ _ _ => ⟨1, 1, 1⟩) 1 0 ⟨0, 0, 1⟩
        ⟨⟨0, 0, 0⟩, ⟨0, 0, -1⟩, 7⟩ ⟨⟨0, 0, 0⟩, ⟨0, 0, 1⟩, 1, .Outside, (0, 0)⟩ with _ | pr
    · exact absurd heq (by
        unfold lambertianScatter
        rw [if_pos (by norm_num : (0 : ℝ) < 1)]
        simp)
    · simp only [heq, Option.map_some']
      rw [hthm.1 pr heq]
  · rcases heq : metalScatter ⟨1, 1, 1⟩ none ⟨0, 0, 1⟩ ⟨⟨0, 0, 0⟩, ⟨0, 0, -1⟩, 7⟩
        ⟨⟨0, 0, 0⟩, ⟨0, 0, 1⟩, 1, .Outside, (0, 0)⟩ with _ | pr
    · exact absurd heq (by
        unfold metalScatter
        rw [if_pos (Or.inl rfl)]
        simp)
    · simp only [heq, Option.map_some']
      rw [hthm.2.1 pr heq]
  · rcases heq : dielectricScatter 2 1 ⟨⟨0, 0, 0⟩, ⟨0, 0, -1⟩, 7⟩
        ⟨⟨0, 0, 0⟩, ⟨0, 0, 1⟩, 1, .Outside, (0, 0)⟩ with _ | pr
    · exact absurd heq (by unfold dielectricScatter; simp)
    · simp only [heq, Option.map_some']
      rw [hthm.2.2 pr heq]

theorem quad_root_zero (a h c d t : ℝ) (ha : a ≠ 0) (hdd : d = h * h - a * c)
    (hd : 0 ≤ d)
    (ht : t = (h - Real.sqrt d) / a ∨ t = (h + Real.sqrt d) / a) :
    a * (t * t) - 2 * h * t + c = 0 := by
  have hs : Real.sqrt d * Real.sqrt d = d := Real.mul_self_sqrt hd
  have key : a * (t * t) - 2 * h * t + c =
      ((a * t - h) * (a * t - h) - (h * h - a * c)) / a := by
    field_simp
    ring
  rcases ht with ht | ht
  · have hat : a * t = h - Real.sqrt d := by
      rw [ht]
      field_simp
    rw [key, hat, ← hdd, show h - Real.sqrt d - h = -Real.sqrt d by ring,
      neg_mul_neg, hs]
    simp
  · have hat : a * t = h + Real.sqrt d := by
      rw [ht]
      field_simp
    rw [key, hat, ← hdd, show h + Real.sqrt d - h = Real.sqrt d by ring, hs]
    simp

theorem at_sub_center_dot (s : Sphere) (ray : Ray) (t : ℝ) :
    (ray.at t - s.centerAt ray.tm).dot (ray.at t - s.centerAt ray.tm) =
      sphQuadA ray * (t * t) - 2 * sphQuadH s ray * t +
        (sphQuadC s ray + s.r * s.r) := by
  unfold Ray.at sphQuadA sphQuadH sphQuadC sphOc Point.dot
  simp only [Point.add_def, Point.sub_def, Point.smul_def]
  ring

/-- C2: for a sphere with non-negative radius, any ray and any query
interval: a negative half-b discriminant yields no hit; a returned `t` lies
strictly inside the queried interval, is the smaller root `(h-√d)/a` or —
when the smaller root is outside the interval — the larger root
`(h+√d)/a`, and the hit point satisfies the sphere equation exactly (the
real-arithmetic strengthening of "up to floating-point tolerance"). -/
theorem sphere_hit_properties (s : Sphere) (ray : Ray) (rt : Interval EReal)
    (hrad : 0 ≤ s.r) :
    (sphDisc s ray < 0 → sphereHitT s ray rt = none) ∧
    (∀ t, sphereHitT s ray rt = some t →
      rt.surrounds t ∧
      (t = (sphQuadH s ray - Real.sqrt (sphDisc s ray)) / sphQuadA ray ∨
        (¬ rt.surrounds ((sphQuadH s ray - Real.sqrt (sphDisc s ray)) / sphQuadA ray) ∧
          t = (sphQuadH s ray + Real.sqrt (sphDisc s ray)) / sphQuadA ray)) ∧
      (ray.at t - s.centerAt ray.tm).dot (ray.at t - s.centerAt ray.tm) =
        s.r * s.r) := by
  constructor
  · intro hlt
    rw [sphereHitT_def, if_pos hlt]
  · intro t ht
    rw [sphereHitT_def] at ht
    split_ifs at ht with h1 h2 h3 h4
    · rw [Option.some_inj] at ht
      subst ht
      refine ⟨h3, Or.inl rfl, ?_⟩
      rw [at_sub_center_dot]
      have hz := quad_root_zero (sphQuadA ray) (sphQuadH s ray) (sphQuadC s ray)
        (sphDisc s ray) _ h2 (by unfold sphDisc; ring) (not_lt.1 h1) (Or.inl rfl)
      linarith
    · rw [Option.some_inj] at ht
      subst ht
      refine ⟨h4, Or.inr ⟨h3, rfl⟩, ?_⟩
      rw [at_sub_center_dot]
      have hz := quad_root_zero (sphQuadA ray) (sphQuadH s ray) (sphQuadC s ray)
        (sphDisc s ray) _ h2 (by unfold sphDisc; ring) (not_lt.1 h1) (Or.inr rfl)
      linarith

/-- Witness for C2 at a concrete ray missing a concrete sphere (negative
discriminant). -/
theorem sphere_hit_properties_witness :
    (0 : ℝ) ≤ (sphereNewStatic 1 ⟨0, 0, -2⟩ (fun _ _ => none)).r ∧
    sphDisc (sphereNewStatic 1 ⟨0, 0, -2⟩ (fun _ _ => none)) ⟨⟨0, 0, 0⟩, ⟨1, 0, 0⟩, 0⟩ < 0 ∧
    sphereHitT (sphereNewStatic 1 ⟨0, 0, -2⟩ (fun _ _ => none)) ⟨⟨0, 0, 0⟩, ⟨1, 0, 0⟩, 0⟩
      ⟨((0.001 : ℝ) : EReal), ((100 : ℝ) : EReal)⟩ = none := by
  have hmax : max (1 : ℝ) 0 = 1 := by norm_num
  have h1 : (0 : ℝ) ≤ (sphereNewStatic 1 ⟨0, 0, -2⟩ (fun _ _ => none)).r := by
    rw [show (sphereNewStatic 1 ⟨0, 0, -2⟩ (fun _ _ => none)).r = max 1 0 from rfl, hmax]
    norm_num
  have h2 : sphDisc (sphereNewStatic 1 ⟨0, 0, -2⟩ (fun _ _ => none))
      ⟨⟨0, 0, 0⟩, ⟨1, 0, 0⟩, 0⟩ < 0 := by
    unfold sphDisc sphQuadA sphQuadH sphQuadC sphOc Sphere.centerAt sphereNewStatic
    norm_num [Point.dot]
  exact ⟨h1, h2, (sphere_hit_properties _ _ _ h1).1 h2⟩

theorem applyOps_bvh (ops : List SceneOp) (s : Scene) (h : s.bvh.isSome) :
    (applyOps s ops).bvh = s.bvh := by
  induction ops generalizing s with
  | nil => rfl
  | cons op ops ih =>
      show (applyOps (applyOp s op) ops).bvh = s.bvh
      cases op with
      | addOp o =>
          show (applyOps (sceneAdd s o) ops).bvh = s.bvh
          rw [ih (sceneAdd s o) h]
          rfl
      | buildOp =>
          show (applyOps (sceneBuildBvh s) ops).bvh = s.bvh
          unfold sceneBuildBvh
          rw [if_pos h, ih s h]

theorem sceneHit_congr (s1 s2 : Scene) (ray : Ray) (rt : Interval EReal)
    (h : s1.bvh = s2.bvh) : sceneHit s1 ray rt = sceneHit s2 ray rt := by
  unfold sceneHit
  rw [h]

theorem bvhNew_isSome_aux : ∀ (n : ℕ) (l : List Sphere), l.length ≤ n → l ≠ [] →
    (bvhNew l).isSome := by
  intro n
  induction n with
  | zero =>
      intro l hlen hne
      cases l with
      | nil => exact absurd rfl hne
      | cons a as => simp at hlen
  | succ n ih =>
      intro l hlen hne
      match l with
      | [a] =>
          rw [bvhNew]
          rfl
      | [a, b] =>
          rw [bvhNew]
          split <;> rfl
      | a :: b :: c :: rest =>
          rw [bvhNew]
          have hms : (sortByAxis (boxSum (a :: b :: c :: rest)).longestAxis
              (a :: b :: c :: rest)).length = rest.length + 3 := by
            rw [length_sortByAxis]
            simp
          have hlen3 : (a :: b :: c :: rest).length = rest.length + 3 := by simp
          have h1 := ih ((sortByAxis (boxSum (a :: b :: c :: rest)).longestAxis
              (a :: b :: c :: rest)).take ((a :: b :: c :: rest).length / 2))
            (by
              simp only [List.length_take, hms, hlen3]
              simp only [List.length_cons] at hlen
              omega)
            (by
              intro hcon
              have := congrArg List.length hcon
              simp only [List.length_take, hms, hlen3, List.length_nil] at this
              omega)
          have h2 := ih ((sortByAxis (boxSum (a :: b :: c :: rest)).longestAxis
              (a :: b :: c :: rest)).drop ((a :: b :: c :: rest).length / 2))
            (by
              simp only [List.length_drop, hms, hlen3]
              simp only [List.length_cons] at hlen
              omega)
            (by
              intro hcon
              have := congrArg List.length hcon
              simp only [List.length_drop, hms, hlen3, List.length_nil] at this
              omega)
          rcases Option.isSome_iff_exists.1 h1 with ⟨leftT, hlt⟩
          rcases Option.isSome_iff_exists.1 h2 with ⟨rightT, hrt⟩
          rw [hlt, hrt]
          rfl

theorem bvhNew_isSome (l : List Sphere) (hne : l ≠ []) : (bvhNew l).isSome :=
  bvhNew_isSome_aux l.length l le_rfl hne

/-- C10: `Scene::build_bvh` builds only when no BVH exists; after the first
(successful) build, any further `add`/`build_bvh` operations leave the BVH
unchanged, so `Scene::hit` gives exactly the results determined by the
objects present at the first build. -/
theorem scene_hit_frozen (l : List Sphere) (ops : List SceneOp) (ray : Ray)
    (rt : Interval EReal) (hne : l ≠ []) :
    (∀ s : Scene, s.bvh.isSome → sceneBuildBvh s = s) ∧
    (applyOps (sceneBuildBvh ⟨l, none⟩) ops).bvh = bvhNew l ∧
    sceneHit (applyOps (sceneBuildBvh ⟨l, none⟩) ops) ray rt =
      sceneHit (sceneBuildBvh ⟨l, none⟩) ray rt := by
  have hbase : (sceneBuildBvh ⟨l, none⟩).bvh = bvhNew l := by
    unfold sceneBuildBvh
    rfl
  have hsome : (sceneBuildBvh ⟨l, none⟩).bvh.isSome := by
    rw [hbase]
    exact bvhNew_isSome l hne
  have hpres := applyOps_bvh ops (sceneBuildBvh ⟨l, none⟩) hsome
  refine ⟨?_, ?_, ?_⟩
  · intro s h
    unfold sceneBuildBvh
    rw [if_pos h]
  · rw [hpres, hbase]
  · exact sceneHit_congr _ _ ray rt hpres

/-- Witness for C10: one sphere built, then another added and a rebuild
attempted; the hit results are unchanged. -/
theorem scene_hit_frozen_witness :
    ([sphereNewStatic 1 ⟨0, 0, 0⟩ (fun _ _ => none)] ≠ []) ∧
    sceneHit (applyOps (sceneBuildBvh ⟨[sphereNewStatic 1 ⟨0, 0, 0⟩ (fun _ _ => none)], none⟩)
        [.addOp (sphereNewStatic 1 ⟨3, 3, 3⟩ (fun _ _ => none)), .buildOp])
      ⟨⟨0, 0, 5⟩, ⟨0, 0, 1⟩, 0⟩ ⟨((0.001 : ℝ) : EReal), ⊤⟩ =
    sceneHit (sceneBuildBvh ⟨[sphereNewStatic 1 ⟨0, 0, 0⟩ (fun _ _ => none)], none⟩)
      ⟨⟨0, 0, 5⟩, ⟨0, 0, 1⟩, 0⟩ ⟨((0.001 : ℝ) : EReal), ⊤⟩ := by
  refine ⟨by simp, ?_⟩
  exact (scene_hit_frozen [sphereNewStatic 1 ⟨0, 0, 0⟩ (fun _ _ => none)]
    [.addOp (sphereNewStatic 1 ⟨3, 3, 3⟩ (fun _ _ => none)), .buildOp]
    ⟨⟨0, 0, 5⟩, ⟨0, 0, 1⟩, 0⟩ ⟨((0.001 : ℝ) : EReal), ⊤⟩ (by simp)).2.2

/-- C3 (counterexample): building a BVH for a scene with no primitives does
not succeed: `Bvh::new` marks the zero-object span `unreachable!()` and
panics (modelled as `none`), so the claimed successful empty-scene render
is impossible. -/
theorem bvh_empty_build_fails : bvhNew ([] : List Sphere) = none := by
  rw [bvhNew]

/-- C3 (amended): on every pixel ray for which the scene hit query on
`[0.001, +inf)` reports no hit (and the depth budget is positive), the
integrator returns exactly the background gradient
`lerp(white, skyBlue, 0.5 * (unit(direction).y + 1))`. -/
theorem color_miss_background (scene : Scene) (ray : Ray) (depth : ℕ)
    (hd : depth ≠ 0)
    (hmiss : sceneHit scene ray ⟨((0.001 : ℝ) : EReal), ⊤⟩ = none) :
    colorFn scene depth ray = background ray := by
  cases depth with
  | zero => exact absurd rfl hd
  | succ n =>
      unfold colorFn
      rw [hmiss]

theorem ecoe_le {a b : ℝ} : ((a : EReal) ≤ (b : EReal)) ↔ a ≤ b := EReal.coe_le_coe_iff

theorem ecoe_lt {a b : ℝ} : ((a : EReal) < (b : EReal)) ↔ a < b := EReal.coe_lt_coe_iff

/-- Witness for C3's amended theorem: a one-sphere scene and a ray pointing
away from it; the BVH box test already fails on the z slab, the scene hit
is `none`, and the integrator returns the background gradient. -/
theorem color_miss_background_witness :
    (2 : ℕ) ≠ 0 ∧
    sceneHit (sceneBuildBvh ⟨[sphereNewStatic 1 ⟨0, 0, -2⟩ (fun _ _ => none)], none⟩)
      ⟨⟨0, 0, 5⟩, ⟨0, 0, 1⟩, 0⟩ ⟨((0.001 : ℝ) : EReal), ⊤⟩ = none ∧
    colorFn (sceneBuildBvh ⟨[sphereNewStatic 1 ⟨0, 0, -2⟩ (fun _ _ => none)], none⟩) 2
      ⟨⟨0, 0, 5⟩, ⟨0, 0, 1⟩, 0⟩ =
      background ⟨⟨0, 0, 5⟩, ⟨0, 0, 1⟩, 0⟩ := by
  have hboxz : (boxSum [sphereNewStatic 1 ⟨0, 0, -2⟩ (fun _ _ => none)]).z =
      (⟨-3, -1⟩ : Interval ℝ) := by
    show (Aabb.fromPoints _ _).z = _
    unfold Aabb.fromPoints rvec
    simp only [Point.sub_def, Point.add_def]
    norm_num
  have hz : ¬ slabHit (⟨-3, -1⟩ : Interval ℝ) 5 1 ⟨((0.001 : ℝ) : EReal), ⊤⟩ := by
    unfold slabHit
    rw [if_neg one_ne_zero]
    intro hcon
    simp only at hcon
    rw [show ((-3 : ℝ) - 5) / 1 = -8 by norm_num,
      show ((-1 : ℝ) - 5) / 1 = -6 by norm_num,
      if_pos (by norm_num : (-8 : ℝ) < -6),
      max_eq_left (ecoe_le.2 (by norm_num)), min_eq_right le_top, ecoe_lt] at hcon
    norm_num at hcon
  have haabb : ¬ aabbHit (boxSum [sphereNewStatic 1 ⟨0, 0, -2⟩ (fun _ _ => none)])
      ⟨⟨0, 0, 5⟩, ⟨0, 0, 1⟩, 0⟩ ⟨((0.001 : ℝ) : EReal), ⊤⟩ := by
    intro hcon
    have hzslab := hcon.2.2
    rw [hboxz] at hzslab
    exact hz hzslab
  have hb : bvhNew [sphereNewStatic 1 ⟨0, 0, -2⟩ (fun _ _ => none)] =
      some (.node (.leaf (sphereNewStatic 1 ⟨0, 0, -2⟩ (fun _ _ => none)))
        (.leaf (sphereNewStatic 1 ⟨0, 0, -2⟩ (fun _ _ => none)))
        (boxSum [sphereNewStatic 1 ⟨0, 0, -2⟩ (fun _ _ => none)])) := by
    rw [bvhNew]
  have hmiss : sceneHit (sceneBuildBvh ⟨[sphereNewStatic 1 ⟨0, 0, -2⟩ (fun _ _ => none)], none⟩)
      ⟨⟨0, 0, 5⟩, ⟨0, 0, 1⟩, 0⟩ ⟨((0.001 : ℝ) : EReal), ⊤⟩ = none := by
    show sceneHit ⟨[sphereNewStatic 1 ⟨0, 0, -2⟩ (fun _ _ => none)],
      bvhNew [sphereNewStatic 1 ⟨0, 0, -2⟩ (fun _ _ => none)]⟩ _ _ = none
    unfold sceneHit
    rw [hb]
    show bvhHit _ _ _ = none
    unfold bvhHit
    rw [if_neg haabb]
  exact ⟨by norm_num, hmiss, color_miss_background _ _ 2 (by norm_num) hmiss⟩

/-- C5: with antialiasing disabled, the single ray the render loop traces
for pixel `(0, 0)` of a width-2, aspect-2 default camera has direction
`vp_upper_left - lookfrom = (-2, 1, -1)`, i.e. it passes through the
pixel's upper-left corner, not through the pixel center
`px00_loc + 0*px_du + 0*px_dv`, which would give direction `(-1, 0, -1)`.
The source computes `px00_loc` (upper-left corner plus half a pixel delta)
but the no-antialiasing branch uses `vp_upper_left` for the variable it
names `px_center`. -/
theorem noaa_ray_through_corner :
    cameraBuild none none none 2 2 (some 0) none none none none =
      ⟨⟨0, 0, 0⟩, ⟨2, 0, 0⟩, ⟨0, -2, 0⟩, 2, 1, ⟨-2, 1, -1⟩, ⟨-1, 0, -1⟩, none, 0,
        10, ⟨0, 0, 0⟩, ⟨0, 0, 0⟩⟩ ∧
    (noAaRay (cameraBuild none none none 2 2 (some 0) none none none none) 0 0).dir =
      (⟨-2, 1, -1⟩ : Point) ∧
    claimPixelCenterDir (cameraBuild none none none 2 2 (some 0) none none none none) 0 0 =
      (⟨-1, 0, -1⟩ : Point) ∧
    (⟨-2, 1, -1⟩ : Point) ≠ (⟨-1, 0, -1⟩ : Point) := by
  have hcast : ((2 : ℕ) : ℝ) = 2 := by norm_num
  have hhalf : ((2 : ℕ) : ℝ) / (2 : ℝ) = 1 := by norm_num
  have htan : Real.tan (Real.pi / 2 / 2) = 1 := by
    rw [show Real.pi / 2 / 2 = Real.pi / 4 by ring]
    exact Real.tan_pi_div_four
  have hc : cameraBuild none none none 2 2 (some 0) none none none none =
      ⟨⟨0, 0, 0⟩, ⟨2, 0, 0⟩, ⟨0, -2, 0⟩, 2, 1, ⟨-2, 1, -1⟩, ⟨-1, 0, -1⟩, none, 0,
        10, ⟨0, 0, 0⟩, ⟨0, 0, 0⟩⟩ := by
    unfold cameraBuild
    simp only [Option.getD]
    norm_num [htan, Real.tan_zero, Point.cross, Point.unit, Point.size, Point.squaredSize,
      Point.sub_def, Point.neg_def, Point.smul_def, Point.sdiv_def, Point.add_def,
      Real.sqrt_one, Nat.floor_one, Camera.mk.injEq, Point.mk.injEq]
  refine ⟨hc, ?_, ?_, ?_⟩
  · rw [hc]
    unfold noAaRay
    simp only [Point.smul_def, Point.add_def, Point.sub_def]
    norm_num
  · rw [hc]
    unfold claimPixelCenterDir
    simp only [Point.smul_def, Point.add_def, Point.sub_def]
    norm_num
  · intro hcon
    have := congrArg Point.y hcon
    norm_num at this

theorem containsI_refl {α : Type} [LinearOrder α] (i : Interval α) : i.containsI i :=
  ⟨le_refl _, le_refl _⟩

theorem containsI_trans {α : Type} [LinearOrder α] {a b c : Interval α}
    (h1 : a.containsI b) (h2 : b.containsI c) : a.containsI c :=
  ⟨le_trans h1.1 h2.1, le_trans h2.2 h1.2⟩

theorem containsB_refl {α : Type} [LinearOrder α] (b : Aabb α) : b.containsB b :=
  ⟨containsI_refl _, containsI_refl _, containsI_refl _⟩

theorem containsB_trans {α : Type} [LinearOrder α] {a b c : Aabb α}
    (h1 : a.containsB b) (h2 : b.containsB c) : a.containsB c :=
  ⟨containsI_trans h1.1 h2.1, containsI_trans h1.2.1 h2.2.1,
   containsI_trans h1.2.2 h2.2.2⟩

theorem merge_contains_left {α : Type} [LinearOrder α] (a b : Aabb α) :
    (Aabb.merge a b).containsB a :=
  ⟨Interval.enclosing_contains_left _ _, Interval.enclosing_contains_left _ _,
   Interval.enclosing_contains_left _ _⟩

theorem merge_contains_right {α : Type} [LinearOrder α] (a b : Aabb α) :
    (Aabb.merge a b).containsB b :=
  ⟨Interval.enclosing_contains_right _ _, Interval.enclosing_contains_right _ _,
   Interval.enclosing_contains_right _ _⟩

theorem enclosing_least {α : Type} [LinearOrder α] {B a b : Interval α}
    (ha : B.containsI a) (hb : B.containsI b) : B.containsI (Interval.enclosing a b) := by
  constructor
  · unfold Interval.enclosing
    dsimp only
    split
    · exact ha.1
    · exact hb.1
  · unfold Interval.enclosing
    dsimp only
    split
    · exact ha.2
    · exact hb.2

theorem merge_least {α : Type} [LinearOrder α] {B a b : Aabb α}
    (ha : B.containsB a) (hb : B.containsB b) : B.containsB (Aabb.merge a b) :=
  ⟨enclosing_least ha.1 hb.1, enclosing_least ha.2.1 hb.2.1,
   enclosing_least ha.2.2 hb.2.2⟩

theorem foldl_merge_contains_init (l : List Sphere) (b : Aabb ℝ) :
    (l.foldl (fun acc s2 => Aabb.merge acc s2.bbox) b).containsB b := by
  induction l generalizing b with
  | nil => exact containsB_refl b
  | cons a l ih =>
      exact containsB_trans (ih (Aabb.merge b a.bbox)) (merge_contains_left _ _)

theorem foldl_merge_contains_mem (l : List Sphere) (b : Aabb ℝ) (s : Sphere)
    (hs : s ∈ l) : (l.foldl (fun acc s2 => Aabb.merge acc s2.bbox) b).containsB s.bbox := by
  induction l generalizing b with
  | nil => exact absurd hs (by simp)
  | cons a l ih =>
      rcases List.mem_cons.1 hs with rfl | hs
      · exact containsB_trans (foldl_merge_contains_init l (Aabb.merge b s.bbox))
          (merge_contains_right _ _)
      · exact ih (Aabb.merge b a.bbox) hs

theorem boxSum_contains (l : List Sphere) (s : Sphere) (hs : s ∈ l) :
    (boxSum l).containsB s.bbox := by
  cases l with
  | nil => exact absurd hs (by simp)
  | cons a l =>
      rcases List.mem_cons.1 hs with rfl | hs
      · exact foldl_merge_contains_init l s.bbox
      · exact foldl_merge_contains_mem l a.bbox s hs

theorem foldl_merge_least (l : List Sphere) (b : Aabb ℝ) (B : Aabb ℝ)
    (hb : B.containsB b) (h : ∀ s ∈ l, B.containsB s.bbox) :
    B.containsB (l.foldl (fun acc s2 => Aabb.merge acc s2.bbox) b) := by
  induction l generalizing b with
  | nil => exact hb
  | cons a l ih =>
      exact ih (Aabb.merge b a.bbox)
        (merge_least hb (h a (List.mem_cons_self a l)))
        (fun s hs => h s (List.mem_cons_of_mem a hs))

theorem boxSum_least (l : List Sphere) (B : Aabb ℝ) (hne : l ≠ [])
    (h : ∀ s ∈ l, B.containsB s.bbox) : B.containsB (boxSum l) := by
  cases l with
  | nil => exact absurd rfl hne
  | cons a l =>
      exact foldl_merge_least l a.bbox B (h a (List.mem_cons_self a l))
        (fun s hs => h s (List.mem_cons_of_mem a hs))

theorem WFT_leaf_box (tr : BTree) (hwf : WFT tr) (s : Sphere)
    (hs : s ∈ leavesT tr) : (treeBox tr).containsB s.bbox := by
  induction hwf with
  | leaf s0 =>
      rcases List.mem_cons.1 hs with rfl | hcon
      · exact containsB_refl _
      · exact absurd hcon (by simp)
  | node lt rt box hwl hwr hcl hcr ihl ihr =>
      rcases List.mem_append.1 hs with hmem | hmem
      · exact containsB_trans hcl (ihl hmem)
      · exact containsB_trans hcr (ihr hmem)

theorem minOpt_none_right (x : Option ℝ) : minOpt x none = x := by
  cases x <;> rfl

theorem minOpt_eq_none_iff (x y : Option ℝ) :
    minOpt x y = none ↔ x = none ∧ y = none := by
  cases x <;> cases y <;> simp [minOpt]

theorem bruteForceT_cons (a : Sphere) (l : List Sphere) (ray : Ray)
    (rt : Interval EReal) :
    bruteForceT (a :: l) ray rt = minOpt (sphereHitT a ray rt) (bruteForceT l ray rt) := rfl

theorem minOpt_assoc (x y z : Option ℝ) :
    minOpt (minOpt x y) z = minOpt x (minOpt y z) := by
  cases x <;> cases y <;> cases z <;> simp [minOpt, min_assoc]

theorem bruteForceT_append (l1 l2 : List Sphere) (ray : Ray) (rt : Interval EReal) :
    bruteForceT (l1 ++ l2) ray rt =
      minOpt (bruteForceT l1 ray rt) (bruteForceT l2 ray rt) := by
  induction l1 with
  | nil => rfl
  | cons a l ih =>
      rw [List.cons_append, bruteForceT_cons, ih, bruteForceT_cons, minOpt_assoc]

theorem bruteForceT_none_iff (l : List Sphere) (ray : Ray) (rt : Interval EReal) :
    bruteForceT l ray rt = none ↔ ∀ s ∈ l, sphereHitT s ray rt = none := by
  induction l with
  | nil => simp [bruteForceT]
  | cons a l ih =>
      rw [bruteForceT_cons, minOpt_eq_none_iff, ih]
      constructor
      · rintro ⟨h1, h2⟩ s hs
        rcases List.mem_cons.1 hs with rfl | hs
        · exact h1
        · exact h2 s hs
      · intro h
        exact ⟨h a (List.mem_cons_self a l), fun s hs => h s (List.mem_cons_of_mem a hs)⟩

theorem bruteForceT_some_iff (l : List Sphere) (ray : Ray) (rt : Interval EReal) :
    ∀ t : ℝ, bruteForceT l ray rt = some t ↔
      ((∃ s ∈ l, sphereHitT s ray rt = some t) ∧
        ∀ s ∈ l, ∀ u, sphereHitT s ray rt = some u → t ≤ u) := by
  induction l with
  | nil => intro t; simp [bruteForceT]
  | cons a l ih =>
      intro t
      rw [bruteForceT_cons]
      rcases ha : sphereHitT a ray rt with _ | ua
      · rw [show minOpt none (bruteForceT l ray rt) = bruteForceT l ray rt from rfl, ih t]
        constructor
        · rintro ⟨⟨s, hs, hhit⟩, hmin⟩
          refine ⟨⟨s, List.mem_cons_of_mem a hs, hhit⟩, ?_⟩
          intro s2 hs2 u hu
          rcases List.mem_cons.1 hs2 with rfl | hs2
          · rw [ha] at hu
            exact absurd hu (by simp)
          · exact hmin s2 hs2 u hu
        · rintro ⟨⟨s, hs, hhit⟩, hmin⟩
          rcases List.mem_cons.1 hs with rfl | hs
          · rw [ha] at hhit
            exact absurd hhit (by simp)
          · exact ⟨⟨s, hs, hhit⟩,
              fun s2 hs2 u hu => hmin s2 (List.mem_cons_of_mem a hs2) u hu⟩
      · rcases hb : bruteForceT l ray rt with _ | ub
        · rw [show minOpt (some ua) none = some ua from rfl]
          have hnone := (bruteForceT_none_iff l ray rt).1 hb
          constructor
          · intro h
            rw [Option.some_inj] at h
            subst h
            refine ⟨⟨a, List.mem_cons_self a l, ha⟩, ?_⟩
            intro s2 hs2 u hu
            rcases List.mem_cons.1 hs2 with rfl | hs2
            · rw [ha, Option.some_inj] at hu
              exact le_of_eq hu
            · rw [hnone s2 hs2] at hu
              exact absurd hu (by simp)
          · rintro ⟨⟨s, hs, hhit⟩, hmin⟩
            rcases List.mem_cons.1 hs with rfl | hs
            · rw [ha] at hhit
              rw [Option.some_inj] at hhit ⊢
              exact hhit
            · rw [hnone s hs] at hhit
              exact absurd hhit (by simp)
        · rw [show minOpt (some ua) (some ub) = some (min ua ub) from rfl]
          obtain ⟨⟨sb, hsb, hsbhit⟩, hbmin⟩ := (ih ub).1 hb
          constructor
          · intro h
            rw [Option.some_inj] at h
            subst h
            constructor
            · rcases le_total ua ub with hle | hle
              · exact ⟨a, List.mem_cons_self a l, by rw [ha, min_eq_left hle]⟩
              · exact ⟨sb, List.mem_cons_of_mem a hsb, by rw [hsbhit, min_eq_right hle]⟩
            · intro s2 hs2 u hu
              rcases List.mem_cons.1 hs2 with rfl | hs2
              · rw [ha, Option.some_inj] at hu
                rw [← hu]
                exact min_le_left _ _
              · exact le_trans (min_le_right _ _) (hbmin s2 hs2 u hu)
          · rintro ⟨⟨s, hs, hhit⟩, hmin⟩
            rw [Option.some_inj]
            have htua : t ≤ ua := hmin a (List.mem_cons_self a l) ua ha
            have htub : t ≤ ub := hmin sb (List.mem_cons_of_mem a hsb) ub hsbhit
            rcases List.mem_cons.1 hs with rfl | hs
            · rw [ha, Option.some_inj] at hhit
              rw [← hhit] at htub ⊢
              exact min_eq_left htub
            · have := (ih t).2 ⟨⟨s, hs, hhit⟩, fun s2 hs2 u hu =>
                hmin s2 (List.mem_cons_of_mem a hs2) u hu⟩
              rw [hb, Option.some_inj] at this
              rw [← this] at htua ⊢
              exact min_eq_right htua

theorem bruteForceT_ext (l1 l2 : List Sphere) (ray : Ray) (rt : Interval EReal)
    (h : ∀ s, s ∈ l1 ↔ s ∈ l2) : bruteForceT l1 ray rt = bruteForceT l2 ray rt := by
  rcases h1 : bruteForceT l1 ray rt with _ | t
  · symm
    rw [bruteForceT_none_iff] at h1 ⊢
    intro s hs
    exact h1 s ((h s).2 hs)
  · symm
    rw [bruteForceT_some_iff] at h1 ⊢
    obtain ⟨⟨s, hs, hh⟩, hmin⟩ := h1
    exact ⟨⟨s, (h s).1 hs, hh⟩, fun s2 hs2 u hu => hmin s2 ((h s2).2 hs2) u hu⟩

theorem sphQuadA_nonneg (ray : Ray) : 0 ≤ sphQuadA ray :=
  add_nonneg (add_nonneg (mul_self_nonneg _) (mul_self_nonneg _)) (mul_self_nonneg _)

theorem sphereHitT_some_spec (s : Sphere) (ray : Ray) (rt : Interval EReal) (t : ℝ)
    (h : sphereHitT s ray rt = some t) :
    rt.surrounds t ∧ sphQuadA ray ≠ 0 ∧ 0 ≤ sphDisc s ray ∧
    (ray.at t - s.centerAt ray.tm).dot (ray.at t - s.centerAt ray.tm) = s.r * s.r := by
  rw [sphereHitT_def] at h
  split_ifs at h with h1 h2 h3 h4
  · rw [Option.some_inj] at h
    subst h
    refine ⟨h3, h2, not_lt.1 h1, ?_⟩
    rw [at_sub_center_dot]
    have hz := quad_root_zero (sphQuadA ray) (sphQuadH s ray) (sphQuadC s ray)
      (sphDisc s ray) _ h2 (by unfold sphDisc; ring) (not_lt.1 h1) (Or.inl rfl)
    linarith
  · rw [Option.some_inj] at h
    subst h
    refine ⟨h4, h2, not_lt.1 h1, ?_⟩
    rw [at_sub_center_dot]
    have hz := quad_root_zero (sphQuadA ray) (sphQuadH s ray) (sphQuadC s ray)
      (sphDisc s ray) _ h2 (by unfold sphDisc; ring) (not_lt.1 h1) (Or.inr rfl)
    linarith

theorem sphereHitT_restrict (s : Sphere) (ray : Ray) (rt : Interval EReal) (M : ℝ)
    (hM : (M : EReal) ≤ rt.max) :
    sphereHitT s ray ⟨rt.min, (M : EReal)⟩ =
      (sphereHitT s ray rt).bind (fun u => if u < M then some u else none) := by
  rw [sphereHitT_def, sphereHitT_def]
  by_cases h1 : sphDisc s ray < 0
  · rw [if_pos h1, if_pos h1]
    rfl
  rw [if_neg h1, if_neg h1]
  by_cases h2 : sphQuadA ray = 0
  · rw [if_pos h2, if_pos h2]
    rfl
  rw [if_neg h2, if_neg h2]
  have ha : 0 < sphQuadA ray := lt_of_le_of_ne (sphQuadA_nonneg ray) (Ne.symm h2)
  have ht12 : (sphQuadH s ray - Real.sqrt (sphDisc s ray)) / sphQuadA ray ≤
      (sphQuadH s ray + Real.sqrt (sphDisc s ray)) / sphQuadA ray := by
    apply div_le_div_of_nonneg_right ?_ ha.le
    have := Real.sqrt_nonneg (sphDisc s ray)
    linarith
  by_cases hs1 : Interval.surrounds ⟨rt.min, (M : EReal)⟩
      ((sphQuadH s ray - Real.sqrt (sphDisc s ray)) / sphQuadA ray)
  · have hs1o : rt.surrounds ((sphQuadH s ray - Real.sqrt (sphDisc s ray)) / sphQuadA ray) :=
      ⟨hs1.1, lt_of_lt_of_le hs1.2 hM⟩
    rw [if_pos hs1, if_pos hs1o]
    simp only [Option.some_bind]
    rw [if_pos (ecoe_lt.1 hs1.2)]
  · rw [if_neg hs1]
    by_cases hs2 : Interval.surrounds ⟨rt.min, (M : EReal)⟩
        ((sphQuadH s ray + Real.sqrt (sphDisc s ray)) / sphQuadA ray)
    · have hs2o : rt.surrounds ((sphQuadH s ray + Real.sqrt (sphDisc s ray)) / sphQuadA ray) :=
        ⟨hs2.1, lt_of_lt_of_le hs2.2 hM⟩
      have h1o : ¬ rt.surrounds ((sphQuadH s ray - Real.sqrt (sphDisc s ray)) / sphQuadA ray) := by
        intro hcon
        have hMt1 : M ≤ (sphQuadH s ray - Real.sqrt (sphDisc s ray)) / sphQuadA ray := by
          by_contra hlt
          exact hs1 ⟨hcon.1, ecoe_lt.2 (not_le.1 hlt)⟩
        have ht2M : (sphQuadH s ray + Real.sqrt (sphDisc s ray)) / sphQuadA ray < M :=
          ecoe_lt.1 hs2.2
        linarith
      rw [if_pos hs2, if_neg h1o, if_pos hs2o]
      simp only [Option.some_bind]
      rw [if_pos (ecoe_lt.1 hs2.2)]
    · rw [if_neg hs2]
      by_cases hs1o : rt.surrounds ((sphQuadH s ray - Real.sqrt (sphDisc s ray)) / sphQuadA ray)
      · rw [if_pos hs1o]
        simp only [Option.some_bind]
        rw [if_neg (by
          intro hlt
          exact hs1 ⟨hs1o.1, ecoe_lt.2 hlt⟩)]
      · rw [if_neg hs1o]
        by_cases hs2o : rt.surrounds ((sphQuadH s ray + Real.sqrt (sphDisc s ray)) / sphQuadA ray)
        · rw [if_pos hs2o]
          simp only [Option.some_bind]
          rw [if_neg (by
            intro hlt
            exact hs2 ⟨hs2o.1, ecoe_lt.2 hlt⟩)]
        · rw [if_neg hs2o]
          rfl

theorem minOpt_restrict (M : ℝ) (x y : Option ℝ) :
    minOpt (x.bind (fun u => if u < M then some u else none))
      (y.bind (fun u => if u < M then some u else none)) =
      (minOpt x y).bind (fun u => if u < M then some u else none) := by
  cases x with
  | none => rfl
  | some a =>
      cases y with
      | none =>
          rw [show (none : Option ℝ).bind (fun u => if u < M then some u else none) = none
            from rfl, minOpt_none_right, minOpt_none_right]
      | some b =>
          rw [show minOpt (some a) (some b) = some (min a b) from rfl]
          simp only [Option.some_bind]
          by_cases hA : a < M
          · by_cases hB : b < M
            · rw [if_pos hA, if_pos hB,
                show minOpt (some a) (some b) = some (min a b) from rfl,
                if_pos (lt_of_le_of_lt (min_le_left a b) hA)]
            · rw [if_pos hA, if_neg hB, minOpt_none_right,
                min_eq_left (le_trans hA.le (not_lt.1 hB)), if_pos hA]
          · by_cases hB : b < M
            · rw [if_neg hA, if_pos hB,
                show minOpt none (some b) = some b from rfl,
                min_eq_right (le_trans hB.le (not_lt.1 hA)), if_pos hB]
            · rw [if_neg hA, if_neg hB,
                show minOpt (none : Option ℝ) none = none from rfl,
                if_neg (by
                  intro hcon
                  rcases min_lt_iff.1 hcon with hc | hc
                  · exact hA hc
                  · exact hB hc)]

theorem bruteForceT_restrict (l : List Sphere) (ray : Ray) (rt : Interval EReal)
    (M : ℝ) (hM : (M : EReal) ≤ rt.max) :
    bruteForceT l ray ⟨rt.min, (M : EReal)⟩ =
      (bruteForceT l ray rt).bind (fun u => if u < M then some u else none) := by
  induction l with
  | nil => rfl
  | cons a l ih =>
      rw [bruteForceT_cons, bruteForceT_cons, sphereHitT_restrict a ray rt M hM, ih,
        minOpt_restrict]

theorem fromPoints_axis (a b : Point) (ax : Axis) :
    (Aabb.fromPoints a b).axisInterval ax =
      ⟨if a.comp ax ≤ b.comp ax then a.comp ax else b.comp ax,
       if a.comp ax ≤ b.comp ax then b.comp ax else a.comp ax⟩ := by
  cases ax <;> rfl

theorem merge_axis (A B : Aabb ℝ) (ax : Axis) :
    (Aabb.merge A B).axisInterval ax =
      Interval.enclosing (A.axisInterval ax) (B.axisInterval ax) := by
  cases ax <;> rfl

theorem containsB_axis {A B : Aabb ℝ} (h : B.containsB A) (ax : Axis) :
    (B.axisInterval ax).min ≤ (A.axisInterval ax).min ∧
      (A.axisInterval ax).max ≤ (B.axisInterval ax).max := by
  cases ax
  · exact h.1
  · exact h.2.1
  · exact h.2.2

theorem sub_comp (p q : Point) (ax : Axis) :
    (p - q).comp ax = p.comp ax - q.comp ax := by
  cases ax <;> rfl

theorem add_comp (p q : Point) (ax : Axis) :
    (p + q).comp ax = p.comp ax + q.comp ax := by
  cases ax <;> rfl

theorem rvec_comp (r : ℝ) (ax : Axis) : (rvec r).comp ax = r := by
  cases ax <;> rfl

theorem at_comp (ray : Ray) (t : ℝ) (ax : Axis) :
    (ray.at t).comp ax = ray.orig.comp ax + ray.dir.comp ax * t := by
  cases ax <;> rfl

theorem comp_sq_le_dot (q : Point) (ax : Axis) : q.comp ax * q.comp ax ≤ q.dot q := by
  cases ax <;> unfold Point.dot Point.comp <;>
    nlinarith [mul_self_nonneg q.x, mul_self_nonneg q.y, mul_self_nonneg q.z]

theorem lerp_between (a b tm : ℝ) (h0 : 0 ≤ tm) (h1 : tm ≤ 1) :
    min a b ≤ a + tm * (b - a) ∧ a + tm * (b - a) ≤ max a b := by
  rcases le_total a b with h | h
  · rw [min_eq_left h, max_eq_right h]
    constructor <;> nlinarith
  · rw [min_eq_right h, max_eq_left h]
    constructor <;> nlinarith

theorem ite_min_eq {α : Type} [LinearOrder α] (x y : α) :
    (if x ≤ y then x else y) = min x y := (min_def x y).symm

theorem ite_max_eq {α : Type} [LinearOrder α] (x y : α) :
    (if x ≥ y then x else y) = max x y := by
  rcases le_total y x with h | h
  · rw [if_pos h, max_eq_left h]
  · rcases eq_or_lt_of_le h with h2 | h2
    · rw [← h2]
      simp
    · rw [if_neg (not_le.2 h2), max_eq_right h]

theorem sphere_box_axis (s : Sphere) (hwf : s.boxOK) (hr : 0 < s.r) (tm : ℝ)
    (htm0 : 0 ≤ tm) (htm1 : tm ≤ 1) (ax : Axis) :
    (s.bbox.axisInterval ax).min ≤ (s.centerAt tm).comp ax - s.r ∧
    (s.centerAt tm).comp ax + s.r ≤ (s.bbox.axisInterval ax).max ∧
    (s.bbox.axisInterval ax).min < (s.bbox.axisInterval ax).max := by
  unfold Sphere.boxOK at hwf
  cases hsc : s.center with
  | Static c =>
      rw [hsc] at hwf
      have hcat : s.centerAt tm = c := by
        unfold Sphere.centerAt
        rw [hsc]
      have hcomp : (c - rvec s.r).comp ax ≤ (c + rvec s.r).comp ax := by
        rw [sub_comp, add_comp, rvec_comp]
        linarith
      rw [hwf, fromPoints_axis, hcat]
      simp only [if_pos hcomp]
      rw [sub_comp, add_comp, rvec_comp]
      exact ⟨le_refl _, le_refl _, by linarith⟩
  | Moving c1 c2 =>
      rw [hsc] at hwf
      have hcat : (s.centerAt tm).comp ax = c1.comp ax + tm * (c2.comp ax - c1.comp ax) := by
        unfold Sphere.centerAt
        rw [hsc]
        cases ax <;> rfl
      have hcomp1 : (c1 - rvec s.r).comp ax ≤ (c1 + rvec s.r).comp ax := by
        rw [sub_comp, add_comp, rvec_comp]
        linarith
      have hcomp2 : (c2 - rvec s.r).comp ax ≤ (c2 + rvec s.r).comp ax := by
        rw [sub_comp, add_comp, rvec_comp]
        linarith
      rw [hwf, merge_axis, fromPoints_axis, fromPoints_axis]
      simp only [if_pos hcomp1, if_pos hcomp2]
      unfold Interval.enclosing
      dsimp only
      rw [ite_min_eq, ite_max_eq, hcat]
      rw [sub_comp, sub_comp, add_comp, add_comp, rvec_comp]
      obtain ⟨hlo, hhi⟩ := lerp_between (c1.comp ax) (c2.comp ax) tm htm0 htm1
      refine ⟨?_, ?_, ?_⟩
      · rw [min_sub_sub_right]
        linarith
      · rw [max_add_add_right]
        linarith
      · rw [min_sub_sub_right, max_add_add_right]
        have := min_le_max (a := c1.comp ax) (b := c2.comp ax)
        linarith

theorem ereal_tighten (m M : EReal) (mn mx tval : ℝ) (h1 : mn ≤ tval) (h2 : tval ≤ mx)
    (h3 : mn < mx) (h4 : m < (tval : EReal)) (h5 : (tval : EReal) < M) :
    max m (mn : EReal) < min M (mx : EReal) := by
  rcases lt_or_eq_of_le h1 with h | h
  · apply lt_of_lt_of_le (b := (tval : EReal))
    · exact max_lt h4 (ecoe_lt.2 h)
    · exact le_min (le_of_lt h5) (ecoe_le.2 h2)
  · apply lt_of_le_of_lt (b := (tval : EReal))
    · exact max_le (le_of_lt h4) (ecoe_le.2 (le_of_eq h))
    · exact lt_min h5 (ecoe_lt.2 (h ▸ h3))

theorem slab_of_point (lo hi o d tval : ℝ) (rt : Interval EReal) (hd : d ≠ 0)
    (hlohi : lo < hi) (hlow : lo ≤ o + d * tval) (hhigh : o + d * tval ≤ hi)
    (hs1 : rt.min < (tval : EReal)) (hs2 : (tval : EReal) < rt.max) :
    slabHit ⟨lo, hi⟩ o d rt := by
  unfold slabHit
  rw [if_neg hd]
  show max rt.min (((if (lo - o) / d < (hi - o) / d then (lo - o) / d else (hi - o) / d) : ℝ) : EReal) <
       min rt.max (((if (lo - o) / d < (hi - o) / d then (hi - o) / d else (lo - o) / d) : ℝ) : EReal)
  rcases lt_or_gt_of_ne hd with hneg | hpos
  · have hcond : ¬ ((lo - o) / d < (hi - o) / d) := by
      rw [not_lt, div_le_div_right_of_neg hneg]
      linarith
    rw [if_neg hcond, if_neg hcond]
    apply ereal_tighten rt.min rt.max _ _ tval ?_ ?_ ?_ hs1 hs2
    · rw [div_le_iff_of_neg hneg]
      linarith
    · rw [le_div_iff_of_neg hneg]
      linarith
    · rw [div_lt_iff_of_neg hneg, div_mul_cancel₀ _ hd]
      linarith
  · have hcond : (lo - o) / d < (hi - o) / d := by
      rw [div_lt_div_right hpos]
      linarith
    rw [if_pos hcond, if_pos hcond]
    apply ereal_tighten rt.min rt.max _ _ tval ?_ ?_ ?_ hs1 hs2
    · rw [div_le_iff hpos]
      linarith
    · rw [le_div_iff hpos]
      linarith
    · exact hcond

theorem sphere_hit_in_bbox (s : Sphere) (ray : Ray) (rt : Interval EReal) (t : ℝ)
    (hwf : s.boxOK) (hr : 0 < s.r) (htm0 : 0 ≤ ray.tm) (htm1 : ray.tm ≤ 1)
    (hhit : sphereHitT s ray rt = some t) (B : Aabb ℝ) (hB : B.containsB s.bbox)
    (hdx : ray.dir.x ≠ 0) (hdy : ray.dir.y ≠ 0) (hdz : ray.dir.z ≠ 0) :
    aabbHit B ray rt := by
  obtain ⟨hsur, hane, hdnn, hsph⟩ := sphereHitT_some_spec s ray rt t hhit
  have main : ∀ ax : Axis, ray.dir.comp ax ≠ 0 →
      slabHit (B.axisInterval ax) (ray.orig.comp ax) (ray.dir.comp ax) rt := by
    intro ax hd
    have hq := comp_sq_le_dot (ray.at t - s.centerAt ray.tm) ax
    rw [hsph] at hq
    have habs1 : (ray.at t - s.centerAt ray.tm).comp ax ≤ s.r := by
      nlinarith [hq, hr]
    have habs2 : -s.r ≤ (ray.at t - s.centerAt ray.tm).comp ax := by
      nlinarith [hq, hr]
    rw [sub_comp] at habs1 habs2
    obtain ⟨hbl, hbu, hlh⟩ := sphere_box_axis s hwf hr ray.tm htm0 htm1 ax
    obtain ⟨hBl, hBu⟩ := containsB_axis hB ax
    have hpt := at_comp ray t ax
    have hmem1 : (B.axisInterval ax).min ≤ ray.orig.comp ax + ray.dir.comp ax * t := by
      rw [← hpt]
      linarith
    have hmem2 : ray.orig.comp ax + ray.dir.comp ax * t ≤ (B.axisInterval ax).max := by
      rw [← hpt]
      linarith
    have hBlohi : (B.axisInterval ax).min < (B.axisInterval ax).max :=
      lt_of_le_of_lt hBl (lt_of_lt_of_le hlh hBu)
    have := slab_of_point (B.axisInterval ax).min (B.axisInterval ax).max
      (ray.orig.comp ax) (ray.dir.comp ax) t rt hd hBlohi hmem1 hmem2 hsur.1 hsur.2
    exact (by
      have hInt : (⟨(B.axisInterval ax).min, (B.axisInterval ax).max⟩ : Interval ℝ) =
          B.axisInterval ax := rfl
      rw [hInt] at this
      exact this)
  exact ⟨main .X hdx, main .Y hdy, main .Z hdz⟩

theorem orO_none_right {α : Type} (x : Option α) : orO x none = x := by
  cases x <;> rfl

theorem orO_map {α β : Type} (f : α → β) (x y : Option α) :
    (orO x y).map f = orO (x.map f) (y.map f) := by
  cases x <;> cases y <;> rfl

theorem bvhHitT_leaf (s : Sphere) (ray : Ray) (rt : Interval EReal) :
    bvhHitT (.leaf s) ray rt = sphereHitT s ray rt := by
  unfold bvhHitT bvhHit sphereHit
  rw [Option.map_map]
  have hcomp : ((fun (pr : HitRec × Material) => pr.1.t) ∘ sphereRec s ray) = id := by
    funext u
    rfl
  rw [hcomp, Option.map_id]
  rfl

theorem bvhHit_node (lt rt_ : BTree) (box : Aabb ℝ) (ray : Ray) (I : Interval EReal) :
    bvhHit (.node lt rt_ box) ray I =
      if aabbHit box ray I then
        orO (match bvhHit lt ray I with
             | some leftHr => bvhHit rt_ ray ⟨I.min, (leftHr.1.t : EReal)⟩
             | none => bvhHit rt_ ray I)
          (bvhHit lt ray I)
      else none := rfl

theorem bvh_eq_brute_aux (ray : Ray)
    (hdx : ray.dir.x ≠ 0) (hdy : ray.dir.y ≠ 0) (hdz : ray.dir.z ≠ 0)
    (htm0 : 0 ≤ ray.tm) (htm1 : ray.tm ≤ 1) :
    ∀ (tr : BTree), WFT tr → (∀ s ∈ leavesT tr, s.boxOK ∧ 0 < s.r) →
    ∀ I : Interval EReal, bvhHitT tr ray I = bruteForceT (leavesT tr) ray I := by
  intro tr hwf
  induction hwf with
  | leaf s =>
      intro _ I
      rw [bvhHitT_leaf]
      rw [show bruteForceT (leavesT (.leaf s)) ray I =
        minOpt (sphereHitT s ray I) none from rfl, minOpt_none_right]
  | node lt rt_ box hwl hwr hcl hcr ihl ihr =>
      intro hprops I
      have hpl : ∀ s ∈ leavesT lt, s.boxOK ∧ 0 < s.r := fun s hs =>
        hprops s (List.mem_append_left _ hs)
      have hpr : ∀ s ∈ leavesT rt_, s.boxOK ∧ 0 < s.r := fun s hs =>
        hprops s (List.mem_append_right _ hs)
      show bvhHitT (.node lt rt_ box) ray I =
        bruteForceT (leavesT lt ++ leavesT rt_) ray I
      rw [bruteForceT_append]
      by_cases hbox : aabbHit box ray I
      · rcases hL : bvhHit lt ray I with _ | prL
        · have hLT : bvhHitT lt ray I = none := by
            unfold bvhHitT
            rw [hL]
            rfl
          have hbl : bruteForceT (leavesT lt) ray I = none := by
            rw [← ihl hpl I]
            exact hLT
          rw [hbl, show minOpt none (bruteForceT (leavesT rt_) ray I) =
            bruteForceT (leavesT rt_) ray I from rfl]
          unfold bvhHitT
          rw [bvhHit_node, if_pos hbox, hL]
          show (orO (bvhHit rt_ ray I) none).map _ = _
          rw [orO_none_right]
          exact ihr hpr I
        · have hLT : bvhHitT lt ray I = some prL.1.t := by
            unfold bvhHitT
            rw [hL]
            rfl
          have hbl : bruteForceT (leavesT lt) ray I = some prL.1.t := by
            rw [← ihl hpl I]
            exact hLT
          have htl_lt : (prL.1.t : EReal) < I.max := by
            obtain ⟨⟨sw, hsw, hswhit⟩, _⟩ :=
              ((bruteForceT_some_iff (leavesT lt) ray I) prL.1.t).1 hbl
            exact (sphereHitT_some_spec sw ray I _ hswhit).1.2
          have hrestrict := bruteForceT_restrict (leavesT rt_) ray I prL.1.t
            (le_of_lt htl_lt)
          have hRT := ihr hpr (⟨I.min, (prL.1.t : EReal)⟩ : Interval EReal)
          unfold bvhHitT
          rw [bvhHit_node, if_pos hbox, hL]
          show (orO (bvhHit rt_ ray ⟨I.min, (prL.1.t : EReal)⟩) (some prL)).map _ = _
          rw [orO_map]
          show orO ((bvhHit rt_ ray ⟨I.min, (prL.1.t : EReal)⟩).map _) (some prL.1.t) = _
          rw [show (bvhHit rt_ ray ⟨I.min, (prL.1.t : EReal)⟩).map
            (fun pr => pr.1.t) = bvhHitT rt_ ray ⟨I.min, (prL.1.t : EReal)⟩ from rfl]
          rw [hRT, hrestrict, hbl]
          rcases hR : bruteForceT (leavesT rt_) ray I with _ | u
          · rfl
          · simp only [Option.some_bind]
            by_cases hu : u < prL.1.t
            · rw [if_pos hu]
              show some u = some (min prL.1.t u)
              rw [min_eq_right hu.le]
            · rw [if_neg hu]
              show some prL.1.t = some (min prL.1.t u)
              rw [min_eq_left (not_lt.1 hu)]
      · have hforall : ∀ s ∈ leavesT lt ++ leavesT rt_, sphereHitT s ray I = none := by
          intro s hs
          rcases hhit : sphereHitT s ray I with _ | u
          · rfl
          · exfalso
            have hbox_s : box.containsB s.bbox := by
              rcases List.mem_append.1 hs with h | h
              · exact containsB_trans hcl (WFT_leaf_box lt hwl s h)
              · exact containsB_trans hcr (WFT_leaf_box rt_ hwr s h)
            obtain ⟨hOK, hrpos⟩ := hprops s hs
            exact hbox (sphere_hit_in_bbox s ray I u hOK hrpos htm0 htm1 hhit box
              hbox_s hdx hdy hdz)
        rw [(bruteForceT_none_iff (leavesT lt) ray I).2
          (fun s h => hforall s (List.mem_append_left _ h)),
          (bruteForceT_none_iff (leavesT rt_) ray I).2
          (fun s h => hforall s (List.mem_append_right _ h))]
        unfold bvhHitT
        rw [bvhHit_node, if_neg hbox]
        rfl

theorem bvhNew_spec_aux : ∀ (n : ℕ) (l : List Sphere) (tr : BTree), l.length ≤ n →
    bvhNew l = some tr →
    WFT tr ∧ treeBox tr = boxSum l ∧ (∀ s, s ∈ leavesT tr ↔ s ∈ l) := by
  intro n
  induction n with
  | zero =>
      intro l tr hlen hb
      cases l with
      | nil =>
          rw [bvhNew] at hb
          exact absurd hb (by simp)
      | cons a as => simp at hlen
  | succ n ih =>
      intro l tr hlen hb
      match l with
      | [] =>
          rw [bvhNew] at hb
          exact absurd hb (by simp)
      | [a] =>
          rw [bvhNew, Option.some_inj] at hb
          subst hb
          refine ⟨?_, rfl, ?_⟩
          · exact WFT.node _ _ _ (WFT.leaf a) (WFT.leaf a)
              (boxSum_contains [a] a (by simp)) (boxSum_contains [a] a (by simp))
          · intro s
            show s ∈ [a] ++ [a] ↔ s ∈ [a]
            simp
      | [a, b] =>
          rw [bvhNew] at hb
          split at hb <;> rw [Option.some_inj] at hb <;> subst hb <;>
            refine ⟨?_, rfl, ?_⟩
          · exact WFT.node _ _ _ (WFT.leaf a) (WFT.leaf b)
              (boxSum_contains [a, b] a (by simp)) (boxSum_contains [a, b] b (by simp))
          · intro s
            show s ∈ [a] ++ [b] ↔ s ∈ [a, b]
            simp
          · exact WFT.node _ _ _ (WFT.leaf b) (WFT.leaf a)
              (boxSum_contains [a, b] b (by simp)) (boxSum_contains [a, b] a (by simp))
          · intro s
            show s ∈ [b] ++ [a] ↔ s ∈ [a, b]
            simp
            tauto
      | a :: b :: c :: rest =>
          rw [bvhNew] at hb
          rcases hLB : bvhNew ((sortByAxis (boxSum (a :: b :: c :: rest)).longestAxis
              (a :: b :: c :: rest)).take ((a :: b :: c :: rest).length / 2)) with _ | ltr
          · rw [hLB] at hb
            simp at hb
          · rcases hRB : bvhNew ((sortByAxis (boxSum (a :: b :: c :: rest)).longestAxis
                (a :: b :: c :: rest)).drop ((a :: b :: c :: rest).length / 2)) with _ | rtr
            · rw [hLB, hRB] at hb
              simp at hb
            · rw [hLB, hRB] at hb
              have hb2 : BTree.node ltr rtr (boxSum (a :: b :: c :: rest)) = tr := by
                injection hb
              subst hb2
              have hms : (sortByAxis (boxSum (a :: b :: c :: rest)).longestAxis
                  (a :: b :: c :: rest)).length = rest.length + 3 := by
                rw [length_sortByAxis]
                simp
              simp only [List.length_cons] at hlen
              have ihL := ih _ ltr (by
                simp only [List.length_take, hms, List.length_cons]
                omega) hLB
              have ihR := ih _ rtr (by
                simp only [List.length_drop, hms, List.length_cons]
                omega) hRB
              have hmemL : ∀ s, s ∈ leavesT ltr → s ∈ (a :: b :: c :: rest) := by
                intro s hs
                have := (ihL.2.2 s).1 hs
                exact (mem_sortByAxis _ s _).1 (List.mem_of_mem_take this)
              have hmemR : ∀ s, s ∈ leavesT rtr → s ∈ (a :: b :: c :: rest) := by
                intro s hs
                have := (ihR.2.2 s).1 hs
                exact (mem_sortByAxis _ s _).1 (List.mem_of_mem_drop this)
              have htakene : (sortByAxis (boxSum (a :: b :: c :: rest)).longestAxis
                  (a :: b :: c :: rest)).take ((a :: b :: c :: rest).length / 2) ≠ [] := by
                intro hcon
                have := congrArg List.length hcon
                simp only [List.length_take, hms, List.length_cons,
                  List.length_nil] at this
                omega
              have hdropne : (sortByAxis (boxSum (a :: b :: c :: rest)).longestAxis
                  (a :: b :: c :: rest)).drop ((a :: b :: c :: rest).length / 2) ≠ [] := by
                intro hcon
                have := congrArg List.length hcon
                simp only [List.length_drop, hms, List.length_cons,
                  List.length_nil] at this
                omega
              refine ⟨?_, rfl, ?_⟩
              · refine WFT.node _ _ _ ihL.1 ihR.1 ?_ ?_
                · rw [ihL.2.1]
                  apply boxSum_least _ _ htakene
                  intro s hs
                  exact boxSum_contains _ s
                    ((mem_sortByAxis _ s _).1 (List.mem_of_mem_take hs))
                · rw [ihR.2.1]
                  apply boxSum_least _ _ hdropne
                  intro s hs
                  exact boxSum_contains _ s
                    ((mem_sortByAxis _ s _).1 (List.mem_of_mem_drop hs))
              · intro s
                show s ∈ leavesT ltr ++ leavesT rtr ↔ _
                rw [List.mem_append, ihL.2.2 s, ihR.2.2 s, ← List.mem_append,
                  List.take_append_drop]
                exact mem_sortByAxis _ s _

/-- C1 (amended): for a scene of spheres of positive radius whose cached
boxes are the constructor-computed ones, a BVH built from them, a ray with
all direction components nonzero and time in `[0, 1]`, and any query
interval, the BVH hit query returns exactly the brute-force nearest-hit
result: same `Some`/`None` outcome and the same parameter `t`. -/
theorem bvh_hit_eq_brute_force (l : List Sphere) (tr : BTree) (ray : Ray)
    (rt : Interval EReal) (hb : bvhNew l = some tr)
    (hprops : ∀ s ∈ l, s.boxOK ∧ 0 < s.r)
    (hdx : ray.dir.x ≠ 0) (hdy : ray.dir.y ≠ 0) (hdz : ray.dir.z ≠ 0)
    (htm0 : 0 ≤ ray.tm) (htm1 : ray.tm ≤ 1) :
    bvhHitT tr ray rt = bruteForceT l ray rt := by
  obtain ⟨hwf, _, hmem⟩ := bvhNew_spec_aux l.length l tr le_rfl hb
  rw [bvh_eq_brute_aux ray hdx hdy hdz htm0 htm1 tr hwf
    (fun s hs => hprops s ((hmem s).1 hs)) rt]
  exact bruteForceT_ext _ _ ray rt hmem

/-- C1 (counterexample): one unit sphere at the origin and the tangent ray
from `(-1, 0, -5)` along `+z`.  The ray's `x` component is zero and its
origin lies exactly on the box's `x = -1` face, so the slab arithmetic
degenerates (IEEE `0 * inf = NaN`) and the BVH reports no hit, while the
brute-force scan finds the tangent hit at `t = 5`. -/
theorem bvh_brute_counterexample :
    bvhNew [sphereNewStatic 1 ⟨0, 0, 0⟩ (fun _ _ => none)] =
      some (.node (.leaf (sphereNewStatic 1 ⟨0, 0, 0⟩ (fun _ _ => none)))
        (.leaf (sphereNewStatic 1 ⟨0, 0, 0⟩ (fun _ _ => none)))
        (boxSum [sphereNewStatic 1 ⟨0, 0, 0⟩ (fun _ _ => none)])) ∧
    bvhHitT (.node (.leaf (sphereNewStatic 1 ⟨0, 0, 0⟩ (fun _ _ => none)))
        (.leaf (sphereNewStatic 1 ⟨0, 0, 0⟩ (fun _ _ => none)))
        (boxSum [sphereNewStatic 1 ⟨0, 0, 0⟩ (fun _ _ => none)]))
      ⟨⟨-1, 0, -5⟩, ⟨0, 0, 1⟩, 0⟩ ⟨((0.001 : ℝ) : EReal), ((1000 : ℝ) : EReal)⟩ = none ∧
    bruteForceT [sphereNewStatic 1 ⟨0, 0, 0⟩ (fun _ _ => none)]
      ⟨⟨-1, 0, -5⟩, ⟨0, 0, 1⟩, 0⟩ ⟨((0.001 : ℝ) : EReal), ((1000 : ℝ) : EReal)⟩ =
      some 5 := by
  have hbx : (boxSum [sphereNewStatic 1 ⟨0, 0, 0⟩ (fun _ _ => none)]).x =
      (⟨-1, 1⟩ : Interval ℝ) := by
    show (Aabb.fromPoints _ _).x = _
    unfold Aabb.fromPoints rvec
    simp only [Point.sub_def, Point.add_def]
    norm_num
  have hxslab : ¬ slabHit (⟨-1, 1⟩ : Interval ℝ) (-1) 0
      ⟨((0.001 : ℝ) : EReal), ((1000 : ℝ) : EReal)⟩ := by
    unfold slabHit
    rw [if_pos rfl]
    rintro ⟨h | h, -⟩
    · exact absurd h.1 (by norm_num)
    · exact absurd h.1 (by norm_num)
  have haabb : ¬ aabbHit (boxSum [sphereNewStatic 1 ⟨0, 0, 0⟩ (fun _ _ => none)])
      ⟨⟨-1, 0, -5⟩, ⟨0, 0, 1⟩, 0⟩ ⟨((0.001 : ℝ) : EReal), ((1000 : ℝ) : EReal)⟩ := by
    intro hcon
    have hx := hcon.1
    rw [hbx] at hx
    exact hxslab hx
  have ha : sphQuadA (⟨⟨-1, 0, -5⟩, ⟨0, 0, 1⟩, 0⟩ : Ray) = 1 := by
    unfold sphQuadA Point.dot
    norm_num
  have hoc : sphOc (sphereNewStatic 1 ⟨0, 0, 0⟩ (fun _ _ => none))
      ⟨⟨-1, 0, -5⟩, ⟨0, 0, 1⟩, 0⟩ = ⟨1, 0, 5⟩ := by
    unfold sphOc sphereNewStatic Sphere.centerAt
    simp only [Point.sub_def]
    norm_num
  have hH : sphQuadH (sphereNewStatic 1 ⟨0, 0, 0⟩ (fun _ _ => none))
      ⟨⟨-1, 0, -5⟩, ⟨0, 0, 1⟩, 0⟩ = 5 := by
    unfold sphQuadH
    rw [hoc]
    unfold Point.dot
    norm_num
  have hC : sphQuadC (sphereNewStatic 1 ⟨0, 0, 0⟩ (fun _ _ => none))
      ⟨⟨-1, 0, -5⟩, ⟨0, 0, 1⟩, 0⟩ = 25 := by
    unfold sphQuadC
    rw [hoc]
    unfold Point.dot
    rw [show (sphereNewStatic 1 ⟨0, 0, 0⟩ (fun _ _ => none)).r = max 1 0 from rfl]
    norm_num
  have hD : sphDisc (sphereNewStatic 1 ⟨0, 0, 0⟩ (fun _ _ => none))
      ⟨⟨-1, 0, -5⟩, ⟨0, 0, 1⟩, 0⟩ = 0 := by
    unfold sphDisc
    rw [ha, hH, hC]
    norm_num
  have hsphere : sphereHitT (sphereNewStatic 1 ⟨0, 0, 0⟩ (fun _ _ => none))
      ⟨⟨-1, 0, -5⟩, ⟨0, 0, 1⟩, 0⟩ ⟨((0.001 : ℝ) : EReal), ((1000 : ℝ) : EReal)⟩ =
      some 5 := by
    rw [sphereHitT_def, hD, hH, ha, Real.sqrt_zero]
    rw [if_neg (lt_irrefl 0), if_neg one_ne_zero,
      show ((5 : ℝ) - 0) / 1 = 5 by norm_num,
      if_pos ⟨ecoe_lt.2 (by norm_num), ecoe_lt.2 (by norm_num)⟩]
  refine ⟨by rw [bvhNew], ?_, ?_⟩
  · unfold bvhHitT
    rw [bvhHit_node, if_neg haabb]
    rfl
  · rw [show bruteForceT [sphereNewStatic 1 ⟨0, 0, 0⟩ (fun _ _ => none)]
        ⟨⟨-1, 0, -5⟩, ⟨0, 0, 1⟩, 0⟩ ⟨((0.001 : ℝ) : EReal), ((1000 : ℝ) : EReal)⟩ =
      minOpt (sphereHitT (sphereNewStatic 1 ⟨0, 0, 0⟩ (fun _ _ => none))
        ⟨⟨-1, 0, -5⟩, ⟨0, 0, 1⟩, 0⟩ ⟨((0.001 : ℝ) : EReal), ((1000 : ℝ) : EReal)⟩) none
      from rfl, minOpt_none_right, hsphere]

/-- Witness for C1's amended theorem at a one-sphere scene with a ray whose
direction components are all nonzero. -/
theorem bvh_hit_eq_brute_force_witness :
    bvhNew [sphereNewStatic 1 ⟨0, 0, -3⟩ (fun _ _ => none)] =
      some (.node (.leaf (sphereNewStatic 1 ⟨0, 0, -3⟩ (fun _ _ => none)))
        (.leaf (sphereNewStatic 1 ⟨0, 0, -3⟩ (fun _ _ => none)))
        (boxSum [sphereNewStatic 1 ⟨0, 0, -3⟩ (fun _ _ => none)])) ∧
    (sphereNewStatic 1 ⟨0, 0, -3⟩ (fun _ _ => none)).boxOK ∧
    (0 : ℝ) < (sphereNewStatic 1 ⟨0, 0, -3⟩ (fun _ _ => none)).r ∧
    bvhHitT (.node (.leaf (sphereNewStatic 1 ⟨0, 0, -3⟩ (fun _ _ => none)))
        (.leaf (sphereNewStatic 1 ⟨0, 0, -3⟩ (fun _ _ => none)))
        (boxSum [sphereNewStatic 1 ⟨0, 0, -3⟩ (fun _ _ => none)]))
      ⟨⟨0, 0, 0⟩, ⟨1, 1, -3⟩, 0⟩ ⟨((0.001 : ℝ) : EReal), ((1000 : ℝ) : EReal)⟩ =
    bruteForceT [sphereNewStatic 1 ⟨0, 0, -3⟩ (fun _ _ => none)]
      ⟨⟨0, 0, 0⟩, ⟨1, 1, -3⟩, 0⟩ ⟨((0.001 : ℝ) : EReal), ((1000 : ℝ) : EReal)⟩ := by
  have hmax : max (1 : ℝ) 0 = 1 := by norm_num
  have hOK : (sphereNewStatic 1 ⟨0, 0, -3⟩ (fun _ _ => none)).boxOK := by
    unfold Sphere.boxOK sphereNewStatic
    dsimp only
    rw [hmax]
  have hr : (0 : ℝ) < (sphereNewStatic 1 ⟨0, 0, -3⟩ (fun _ _ => none)).r := by
    rw [show (sphereNewStatic 1 ⟨0, 0, -3⟩ (fun _ _ => none)).r = max 1 0 from rfl, hmax]
    norm_num
  refine ⟨by rw [bvhNew], hOK, hr, ?_⟩
  exact bvh_hit_eq_brute_force [sphereNewStatic 1 ⟨0, 0, -3⟩ (fun _ _ => none)] _
    ⟨⟨0, 0, 0⟩, ⟨1, 1, -3⟩, 0⟩ ⟨((0.001 : ℝ) : EReal), ((1000 : ℝ) : EReal)⟩
    (by rw [bvhNew])
    (by
      intro s hs
      rw [List.mem_singleton] at hs
      subst hs
      exact ⟨hOK, hr⟩)
    (by norm_num) (by norm_num) (by norm_num) le_rfl (by norm_num)

end

end Raytracer
